/-
Verification of the two programs in this repository:
  * `Problem_1_CayleyTree.py` — generation of a Cayley tree and its degree
    distribution;
  * `Problem_2_AirTraffic.py` — loading an air-traffic network from two flat
    files and answering seven read-only graph queries.

The Python code is shallowly embedded below.  Pure Python functions become
Lean functions on explicit data (graphs are pairs of a node list and an edge
list, kept in insertion order exactly as `networkx` keeps them); calls into
the `networkx` library are modelled by executable Lean definitions that follow
the library's documented semantics (BFS distance, connected components,
eccentricity / diameter / periphery, shortest paths, betweenness centrality).
Python strings are modelled as `List Char`, so that every parsing function of
the scripts (`strip`, `split('|')`, `split()`) is a structurally recursive,
computable definition.
-/
import Mathlib

/-! # Part 1: the Cayley-tree generator (`Problem_1_CayleyTree.py`) -/

/-- A graph as built by the tree script: nodes `(id, level)` in insertion
order, and edges `(parent, child)` in insertion order.  `networkx` stores the
`level=d` keyword of `G.add_node` as a node attribute; here it is the second
component of a node entry. -/
structure NGraph where
  nodes : List (Nat × Nat)
  edges : List (Nat × Nat)
deriving Repr, DecidableEq

/-- `G.nodes[i]['level']`: look the node `i` up in the node list and return
its `level` attribute (the script only ever queries ids that are present). -/
def levelOf (ns : List (Nat × Nat)) (i : Nat) : Nat :=
  match ns.find? (fun p => p.1 == i) with
  | some p => p.2
  | none => 0

/-- The body of `for _ in range(children_count)` in `generate_cayley_tree`:
starting from fresh id `next`, add `cnt` children of `node` at level `d`
(each one is `G.add_node(next_node, level=d)` plus `G.add_edge(node,
next_node)`), and return the new graph, the children created (appended to
`new_level` in order) and the next fresh id. -/
def addChildren (G : NGraph) (node d next cnt : Nat) : NGraph × List Nat × Nat :=
  (⟨G.nodes ++ (List.range cnt).map (fun j => (next + j, d)),
    G.edges ++ (List.range cnt).map (fun j => (node, next + j))⟩,
   (List.range cnt).map (fun j => next + j),
   next + cnt)

/-- The body of `for node in current_level` in `generate_cayley_tree`: the
root generates `k` children, any other node generates `k - 1` children. -/
def expandLevel (k d : Nat) : NGraph → List Nat → Nat → NGraph × List Nat × Nat
  | G, [], next => (G, [], next)
  | G, node :: rest, next =>
    let cnt := if levelOf G.nodes node == 0 then k else k - 1
    let r1 := addChildren G node d next cnt
    let r2 := expandLevel k d r1.1 rest r1.2.2
    (r2.1, r1.2.1 ++ r2.2.1, r2.2.2)

/-- The loop `for d in range(1, P + 1)` of `generate_cayley_tree`: `fuel`
counts the remaining iterations, `d` is the level being generated. -/
def growLoop (k : Nat) : Nat → Nat → NGraph → List Nat → Nat → NGraph
  | 0, _, G, _, _ => G
  | fuel + 1, d, G, cur, next =>
    let r := expandLevel k d G cur next
    growLoop k fuel (d + 1) r.1 r.2.1 r.2.2

/-- `generate_cayley_tree(k, P)` from `Problem_1_CayleyTree.py`: start from
the root node `0` at level `0` and generate levels `1 .. P`. -/
def generate_cayley_tree (k P : Nat) : NGraph :=
  growLoop k P 1 ⟨[(0, 0)], []⟩ [0] 1

/-- `G.number_of_nodes()`. -/
def numNodesN (G : NGraph) : Nat := G.nodes.length

/-- `G.number_of_edges()`. -/
def numEdgesN (G : NGraph) : Nat := G.edges.length

/-- The `networkx` degree of node `i`: edges incident to `i`, with a
self-loop counted twice (the trees built here never contain one). -/
def degN (G : NGraph) (i : Nat) : Nat :=
  (G.edges.filter (fun e => e.1 == i || e.2 == i)).length
    + (G.edges.filter (fun e => e.1 == i && e.2 == i)).length

/-- Number of stored edges `(i, _)`, i.e. children of `i`: every stored edge
runs from a parent to the child created for it. -/
def childCount (G : NGraph) (i : Nat) : Nat :=
  (G.edges.filter (fun e => e.1 == i)).length

example : numNodesN (generate_cayley_tree 3 2) = 10 := by decide
example : numEdgesN (generate_cayley_tree 3 2) = 9 := by decide
example : degN (generate_cayley_tree 3 2) 0 = 3 := by decide
example : childCount (generate_cayley_tree 3 2) 1 = 2 := by decide
example : numNodesN (generate_cayley_tree 2 0) = 1 := by decide
example : childCount (generate_cayley_tree 2 0) 0 = 0 := by decide
example : levelOf (generate_cayley_tree 3 2).nodes 4 = 2 := by decide

/-! # Part 2: the air-traffic network analyzer (`Problem_2_AirTraffic.py`)

## Python string primitives

Python strings are modelled as `List Char`; the three string operations the
script uses (`str.strip`, `str.split('|')`, `str.split()`) are translated
below following Python's semantics. -/

/-- A Python string. -/
abbrev Str := List Char

/-- `str.strip()`: remove leading and trailing whitespace. -/
def pyStrip (s : Str) : Str :=
  ((s.dropWhile Char.isWhitespace).reverse.dropWhile Char.isWhitespace).reverse

/-- `str.split(sep)` for a one-character separator `c`: split at every
occurrence of `c`, keeping empty pieces (`''.split('|') == ['']`). -/
def splitOnChar (c : Char) : Str → List Str
  | [] => [[]]
  | ch :: rest =>
    let r := splitOnChar c rest
    if ch == c then [] :: r
    else
      match r with
      | [] => [[ch]]
      | h :: t => (ch :: h) :: t

/-- Split at every whitespace character, keeping empty pieces. -/
def splitWhite : Str → List Str
  | [] => [[]]
  | ch :: rest =>
    let r := splitWhite rest
    if ch.isWhitespace then [] :: r
    else
      match r with
      | [] => [[ch]]
      | h :: t => (ch :: h) :: t

/-- `str.split()` with no argument: split on runs of whitespace and drop
empty pieces. -/
def pyTokens (s : Str) : List Str :=
  (splitWhite s).filter (fun t => !t.isEmpty)

example : splitOnChar '|' "A|1|CityA".toList = ["A".toList, "1".toList, "CityA".toList] := by decide
example : pyTokens "  1  2 ".toList = ["1".toList, "2".toList] := by decide
example : pyStrip " ab ".toList = "ab".toList := by decide

/-! ## The loaded graph

`networkx` keeps nodes in insertion order together with their attribute
dictionaries, and `build_graph` only ever stores the keys `code` and `city`
(always together); a node created implicitly by `G.add_edge` has an empty
attribute dictionary, i.e. both attributes absent.  -/

/-- One node of the loaded graph: its identifier and its `code` / `city`
attributes (absent on nodes created implicitly by `add_edge`). -/
structure PNode where
  id : Str
  code : Option Str
  city : Option Str
deriving Repr, DecidableEq

/-- The loaded graph: nodes in insertion order, undirected edges stored once
in the orientation in which they were first added. -/
structure PGraph where
  nodes : List PNode
  edges : List (Str × Str)
deriving Repr, DecidableEq

/-- The node identifiers, in insertion order (`list(G.nodes)`). -/
def PGraph.ids (G : PGraph) : List Str := G.nodes.map PNode.id

/-- `G.add_node(id, code=c, city=t)`: update the attributes in place if the
node exists, otherwise append a fresh node. -/
def addNode (G : PGraph) (i : Str) (c t : Str) : PGraph :=
  if G.ids.contains i then
    { G with nodes := G.nodes.map (fun n => if n.id == i then ⟨i, some c, some t⟩ else n) }
  else
    { G with nodes := G.nodes ++ [⟨i, some c, some t⟩] }

/-- The implicit node creation performed by `G.add_edge`: a missing endpoint
is appended with an empty attribute dictionary. -/
def ensureNode (G : PGraph) (i : Str) : PGraph :=
  if G.ids.contains i then G else { G with nodes := G.nodes ++ [⟨i, none, none⟩] }

/-- Whether the undirected edge `{a, b}` is already stored. -/
def PGraph.hasEdge (G : PGraph) (a b : Str) : Bool :=
  G.edges.contains (a, b) || G.edges.contains (b, a)

/-- `G.add_edge(a, b)` of `networkx.Graph`: create missing endpoints, then
record the undirected edge unless it is already present. -/
def addEdge (G : PGraph) (a b : Str) : PGraph :=
  if (ensureNode (ensureNode G a) b).hasEdge a b then ensureNode (ensureNode G a) b
  else { ensureNode (ensureNode G a) b with
         edges := (ensureNode (ensureNode G a) b).edges ++ [(a, b)] }

/-- The body of the first loop of `build_graph`: strip the line, skip it if
empty, split on `'|'`, and when there are exactly three parts add the node
`parts[1]` with `code=parts[0]` and `city=parts[2]`. -/
def processCityLine (G : PGraph) (line : Str) : PGraph :=
  let t := pyStrip line
  if t.isEmpty then G
  else
    let parts := splitOnChar '|' t
    match parts with
    | [c, i, ct] => addNode G i c ct
    | _ => G

/-- The body of the second loop of `build_graph`: strip the line, skip it if
empty, split on whitespace, and when there are exactly two tokens add the
edge between them. -/
def processNetLine (G : PGraph) (line : Str) : PGraph :=
  let t := pyStrip line
  if t.isEmpty then G
  else
    match pyTokens t with
    | [a, b] => addEdge G a b
    | _ => G

/-- `build_graph(cities_file, network_file)`: the two files are given as
their lists of lines. -/
def build_graph (cityLines netLines : List Str) : PGraph :=
  (netLines.foldl processNetLine (cityLines.foldl processCityLine ⟨[], []⟩))

/-- `G.number_of_nodes()`. -/
def numNodesP (G : PGraph) : Nat := G.nodes.length

/-- `G.number_of_edges()`. -/
def numEdgesP (G : PGraph) : Nat := G.edges.length

/-- Look a node id up and return its `city` attribute; `none` models the
`KeyError` raised by `G.nodes[n]['city']` when the attribute is absent. -/
def getCity (G : PGraph) (i : Str) : Option Str :=
  match G.nodes.find? (fun n => n.id == i) with
  | some n => n.city
  | none => none

/-- Look a node id up and return its `code` attribute (`attrs.get('code')`,
which yields `None` rather than raising when the key is absent). -/
def getCode (G : PGraph) (i : Str) : Option Str :=
  match G.nodes.find? (fun n => n.id == i) with
  | some n => n.code
  | none => none

example :
    build_graph ["A|1|CityA".toList, "B|2|CityB".toList] ["1 2".toList, "2 3".toList] =
      ⟨[⟨"1".toList, some "A".toList, some "CityA".toList⟩,
        ⟨"2".toList, some "B".toList, some "CityB".toList⟩,
        ⟨"3".toList, none, none⟩],
       [("1".toList, "2".toList), ("2".toList, "3".toList)]⟩ := by decide

/-! ## The `networkx` library calls

The script delegates every graph computation to `networkx`.  The library
calls are modelled by the executable definitions below, which follow the
library's documented semantics on the edge-list representation: breadth-first
distances, connected components in node-insertion order, eccentricity /
diameter / periphery, shortest paths, and betweenness centrality. -/

/-- The neighbours of `a` in the undirected edge list `E` (an endpoint of
every stored edge whose other endpoint is `a`). -/
def nbrs (E : List (Str × Str)) (a : Str) : List Str :=
  E.filterMap (fun e => if e.1 == a then some e.2 else if e.2 == a then some e.1 else none)

/-- Undirected adjacency of the edge list `E`. -/
def adjE (E : List (Str × Str)) (a b : Str) : Prop :=
  (a, b) ∈ E ∨ (b, a) ∈ E

instance (E : List (Str × Str)) (a b : Str) : Decidable (adjE E a b) := by
  unfold adjE; infer_instance

/-- `IsWalkL E a l b`: the vertex sequence `a :: l` is a walk in `E` ending
at `b`; its length (number of edges) is `l.length`. -/
def IsWalkL (E : List (Str × Str)) : Str → List Str → Str → Prop
  | a, [], b => a = b
  | a, c :: l, b => adjE E a c ∧ IsWalkL E c l b

instance (E : List (Str × Str)) (a : Str) (l : List Str) (b : Str) :
    Decidable (IsWalkL E a l b) := by
  induction l generalizing a with
  | nil => unfold IsWalkL; infer_instance
  | cons c l ih => unfold IsWalkL; exact @instDecidableAnd _ _ _ (ih c)

/-- There is a walk from `a` to `b` in `E` (the mathematical reachability
relation that `networkx` breadth-first searches decide). -/
def Reach (E : List (Str × Str)) (a b : Str) : Prop :=
  ∃ l, IsWalkL E a l b

/-- Is there a walk of length at most `n` from `a` to `b`?  This is the
fueled breadth-first search underlying all the distance computations. -/
def distLeB (E : List (Str × Str)) : Nat → Str → Str → Bool
  | 0, a, b => a == b
  | n + 1, a, b => a == b || (nbrs E a).any (fun w => distLeB E n w b)

/-- The breadth-first distance from `a` to `b` computed with fuel `f`:
the least `n ≤ f` admitting a walk of length `n`, and `none` when there is
none (`networkx` raises `NetworkXNoPath` / omits the key in that case).
On a graph whose edge endpoints all lie in a vertex list `V`, fuel
`V.length` is proved sufficient below (`reach_iff_distLeB`). -/
def distF (E : List (Str × Str)) (f : Nat) (a b : Str) : Option Nat :=
  (List.range (f + 1)).find? (fun n => distLeB E n a b)

/-- `nx.single_source_shortest_path_length` / `nx.shortest_path` distances on
the loaded graph: fuel is the number of nodes. -/
def PGraph.dist (G : PGraph) (a b : Str) : Option Nat :=
  distF G.edges G.nodes.length a b

/-- The connected component of `seed`, as the list of graph nodes (in node
order) reachable from it: `networkx` components are node sets; the fuel
`V.length` makes the membership test executable. -/
def compOf (V : List Str) (E : List (Str × Str)) (seed : Str) : List Str :=
  V.filter (fun u => distLeB E V.length seed u)

/-- `nx.connected_components(G)`: walk the nodes in insertion order and emit
the component of every node not already seen. -/
def componentsAux (V : List Str) (E : List (Str × Str)) :
    List Str → List Str → List (List Str)
  | [], _ => []
  | v :: rest, seen =>
    if seen.contains v then componentsAux V E rest seen
    else compOf V E v :: componentsAux V E rest (seen ++ compOf V E v)

/-- The list of connected components, in order of first node appearance. -/
def componentsList (G : PGraph) : List (List Str) :=
  componentsAux G.ids G.edges G.ids []

/-- Python's `max(iterable, key=len)`: the first element of maximal length
(on an empty iterable Python raises; the empty list is returned here and the
theorems below hypothesise a non-empty graph). -/
def maxByLen : List (List Str) → List Str
  | [] => []
  | [c] => c
  | c :: rest => let m := maxByLen (rest); if m.length > c.length then m else c

/-- `max(nx.connected_components(G), key=len)`. -/
def largestComp (G : PGraph) : List Str :=
  maxByLen (componentsList G)

/-- `G.subgraph(nodeset)` (and `.copy()`, which changes nothing observable):
the nodes of `G` that lie in the set, in `G`'s node order, with the edges
having both endpoints in the set. -/
def subgraphOf (G : PGraph) (s : List Str) : PGraph :=
  ⟨G.nodes.filter (fun n => s.contains n.id),
   G.edges.filter (fun e => s.contains e.1 && s.contains e.2)⟩

/-- `G_largest = G.subgraph(max(nx.connected_components(G), key=len))`. -/
def largestSub (G : PGraph) : PGraph :=
  subgraphOf G (largestComp G)

/-- The `networkx` degree of node `i` in `G` (a self-loop counts twice). -/
def degP (G : PGraph) (i : Str) : Nat :=
  (G.edges.filter (fun e => e.1 == i || e.2 == i)).length
    + (G.edges.filter (fun e => e.1 == i && e.2 == i)).length

/-- `nx.eccentricity` of `v` in a connected graph with node list `V`: the
maximum breadth-first distance from `v` to any node. -/
def eccOf (V : List Str) (E : List (Str × Str)) (v : Str) : Nat :=
  (V.map (fun u => (distF E V.length v u).getD 0)).foldr Nat.max 0

/-- `nx.diameter`: the maximum eccentricity. -/
def diamOf (V : List Str) (E : List (Str × Str)) : Nat :=
  (V.map (fun v => eccOf V E v)).foldr Nat.max 0

/-- `nx.periphery`: the nodes whose eccentricity equals the diameter, in
node order. -/
def periphOf (V : List Str) (E : List (Str × Str)) : List Str :=
  V.filter (fun v => eccOf V E v == diamOf V E)

/-- The node sequence of the shortest path that `nx.shortest_path` returns:
from `u`, repeatedly step to the first neighbour whose distance to the
target is one less.  `d` is the remaining distance; when `PGraph.dist u t =
some d` this produces a path of `d` edges (`spWalk_length` below). -/
def spWalk (V : List Str) (E : List (Str × Str)) : Nat → Str → Str → List Str
  | 0, u, _ => [u]
  | d + 1, u, t =>
    match (nbrs E u).find? (fun w => distF E V.length w t == some d) with
    | some w => u :: spWalk V E d w t
    | none => [u]

/-- The number of walks of length exactly `n` from `a` to `b`.  A walk whose
length equals the breadth-first distance is automatically a simple path, so
`countWalksLen E (dist a b) a b` is the number of shortest paths `σ(a, b)`
used by betweenness centrality. -/
def countWalksLen (E : List (Str × Str)) : Nat → Str → Str → Nat
  | 0, a, b => if a == b then 1 else 0
  | n + 1, a, b => ((nbrs E a).map (fun w => countWalksLen E n w b)).sum

/-- `σ(s, t)`: the number of shortest paths from `s` to `t` (zero when `t`
is unreachable from `s`). -/
def sigma (V : List Str) (E : List (Str × Str)) (s t : Str) : Nat :=
  match distF E V.length s t with
  | some d => countWalksLen E d s t
  | none => 0

/-- The dependency of the ordered pair `(s, t)` on `v`: the fraction
`σ(s, t | v) / σ(s, t)` of shortest `s`–`t` paths passing through the
interior vertex `v`. -/
def pairDep (V : List Str) (E : List (Str × Str)) (v s t : Str) : ℚ :=
  if s = t ∨ s = v ∨ t = v then 0
  else
    match distF E V.length s v, distF E V.length v t, distF E V.length s t with
    | some d1, some d2, some d =>
      if d1 + d2 = d ∧ sigma V E s t ≠ 0 then
        ((countWalksLen E d1 s v * countWalksLen E d2 v t : Nat) : ℚ) / (sigma V E s t : ℚ)
      else 0
    | _, _, _ => 0

/-- `nx.betweenness_centrality` of `v` (its default normalisation for an
undirected graph: the sum of the dependencies over ordered pairs, rescaled
by `1/((n-1)(n-2))` when `n > 2` and left unscaled otherwise). -/
def betweenness (V : List Str) (E : List (Str × Str)) (v : Str) : ℚ :=
  let s := ((V.map (fun a => (V.map (fun b => pairDep V E v a b)).sum)).sum)
  if V.length > 2 then s / ((V.length - 1) * (V.length - 2) : ℚ) else s

/-! ## The seven query operations

Each `solve_problem2_qN` is modelled as a state-passing function
`PGraph → PGraph × output`: the first component is the graph object as the
operation leaves it, the second the data the operation prints.  A `none` /
`keyError` output records the `KeyError` that the Python code raises when it
reads the `city` attribute of a node that does not have one. -/

/-- `solve_problem2_q1`: node and edge counts. -/
def solve_problem2_q1 (G : PGraph) : PGraph × (Nat × Nat) :=
  (G, (numNodesP G, numEdgesP G))

/-- `solve_problem2_q2`: number of components, and node and edge counts of
the subgraph on the largest component. -/
def solve_problem2_q2 (G : PGraph) : PGraph × (Nat × Nat × Nat) :=
  (G, ((componentsList G).length, numNodesP (largestSub G), numEdgesP (largestSub G)))

/-- The `(node, degree)` pairs of the largest component's subgraph, in node
order (`list(G_largest.degree())`). -/
def q3pairs (G : PGraph) : List (Str × Nat) :=
  (largestSub G).ids.map (fun v => (v, degP (largestSub G) v))

/-- The pairs after `sort(key=lambda x: x[1], reverse=True)`: a stable sort
descending on the degree.  Python's sort is stable, and a stable sort's
output is determined by the comparator, so insertion sort models it
exactly. -/
def q3sorted (G : PGraph) : List (Str × Nat) :=
  (q3pairs G).insertionSort (fun a b => b.2 ≤ a.2)

/-- `solve_problem2_q3`: the top 10 of the sorted pairs, with each node id
replaced by its `city` attribute (`none` when some lookup raises). -/
def solve_problem2_q3 (G : PGraph) : PGraph × Option (List (Str × Nat)) :=
  (G, ((q3sorted G).take 10).mapM (fun p => (getCity G p.1).map (fun c => (c, p.2))))

/-- The degree multiset of the largest component's subgraph, in node order
(`[d for _, d in G_largest.degree()]`). -/
def q4degrees (G : PGraph) : List Nat :=
  (largestSub G).ids.map (fun v => degP (largestSub G) v)

/-- The degree histogram underlying both `plot_degree_distribution` of the
tree script and `solve_problem2_q4`: from the degree multiset `l` of a graph
with `n` nodes, the `(degree, fraction)` points, with the distinct degrees
sorted ascending (Python's `sorted` over the distinct dictionary keys) and
each fraction `count / n` taken exactly in `ℚ`. -/
def histPoints (l : List Nat) (n : Nat) : List (Nat × ℚ) :=
  (l.dedup.insertionSort (fun a b => a ≤ b)).map (fun d => (d, (l.count d : ℚ) / (n : ℚ)))

/-- The degree multiset of the tree graph, in node order
(`[deg for _, deg in G.degree()]`). -/
def degreesN (G : NGraph) : List Nat := G.nodes.map (fun p => degN G p.1)

/-- The `(x, y)` series computed by `plot_degree_distribution` of
`Problem_1_CayleyTree.py`. -/
def plot_degree_distribution (G : NGraph) : List (Nat × ℚ) :=
  histPoints (degreesN G) (numNodesN G)

/-- The `(x_vals, y_vals)` series of `solve_problem2_q4`, which additionally
filters out zero fractions (`if fraction > 0`). -/
def histogram (l : List Nat) (n : Nat) : List (Nat × ℚ) :=
  (histPoints l n).filter (fun p => 0 < p.2)

/-- `solve_problem2_q4`: the plotted `(x, y)` series. -/
def solve_problem2_q4 (G : PGraph) : PGraph × List (Nat × ℚ) :=
  (G, histogram (q4degrees G) (numNodesP (largestSub G)))

/-- The outcome of `solve_problem2_q5`. -/
inductive Q5Out where
  /-- The defensive `if not candidates` branch was taken. -/
  | noCandidate : Q5Out
  /-- A `city` lookup on the path raised `KeyError`. -/
  | keyError : Q5Out
  /-- The printed diameter and path of city names. -/
  | ok : Nat → List Str → Q5Out
deriving Repr, DecidableEq

/-- The nodes of the largest component at breadth-first distance from the
first periphery node equal to the diameter (`candidates` in the source). -/
def q5candidates (G : PGraph) : List Str :=
  match (periphOf (largestSub G).ids (largestSub G).edges).head? with
  | some p0 =>
    (largestSub G).ids.filter
      (fun n => distF (largestSub G).edges (largestSub G).ids.length p0 n
        == some (diamOf (largestSub G).ids (largestSub G).edges))
  | none => []

/-- The node sequence `nx.shortest_path(G_largest, p0, p1)` computed by
`solve_problem2_q5`. -/
def q5pathNodes (G : PGraph) : List Str :=
  match (periphOf (largestSub G).ids (largestSub G).edges).head? with
  | some p0 =>
    match (q5candidates G).head? with
    | some p1 =>
      spWalk (largestSub G).ids (largestSub G).edges
        (diamOf (largestSub G).ids (largestSub G).edges) p0 p1
    | none => []
  | none => []

/-- `solve_problem2_q5`: diameter of the largest component and one shortest
path realising it, as city names. -/
def solve_problem2_q5 (G : PGraph) : PGraph × Q5Out :=
  (G,
    if (q5candidates G).isEmpty then Q5Out.noCandidate
    else
      match (q5pathNodes G).mapM (getCity G) with
      | some cities => Q5Out.ok (diamOf (largestSub G).ids (largestSub G).edges) cities
      | none => Q5Out.keyError)

/-- The outcome of `solve_problem2_q6`. -/
inductive Q6Out where
  /-- `start_node is None or end_node is None`: the printed failure message. -/
  | missingCode : Q6Out
  /-- `nx.NetworkXNoPath` was caught: the printed failure message. -/
  | noPath : Q6Out
  /-- A `city` lookup on the route raised `KeyError`. -/
  | keyError : Q6Out
  /-- The printed number of flights and route of city names. -/
  | ok : Nat → List Str → Q6Out
deriving Repr, DecidableEq

/-- One iteration of the scanning loop of `solve_problem2_q6`: `start_node`
is overwritten when `attrs.get('code') == "CBR"`, otherwise (`elif`)
`end_node` is overwritten when it is `"CPT"`. -/
def q6step (acc : Option Str × Option Str) (n : PNode) : Option Str × Option Str :=
  if n.code == some "CBR".toList then (some n.id, acc.2)
  else if n.code == some "CPT".toList then (acc.1, some n.id)
  else acc

/-- The loop of `solve_problem2_q6` that scans all nodes, starting from
`start_node = None`, `end_node = None`. -/
def q6select (nodes : List PNode) : Option Str × Option Str :=
  nodes.foldl q6step (none, none)

/-- `solve_problem2_q6`: smallest number of flights from `CBR` to `CPT` and
the route as city names. -/
def solve_problem2_q6 (G : PGraph) : PGraph × Q6Out :=
  (G,
    match q6select G.nodes with
    | (some s, some e) =>
      match G.dist s e with
      | none => Q6Out.noPath
      | some d =>
        match (spWalk G.ids G.edges d s e).mapM (getCity G) with
        | some cities => Q6Out.ok ((spWalk G.ids G.edges d s e).length - 1) cities
        | none => Q6Out.keyError
    | _ => Q6Out.missingCode)

/-- The `(node, betweenness)` items of `nx.betweenness_centrality(G_largest)`
in node order, sorted descending by value by the stable `sorted(...,
reverse=True)`. -/
def q7sorted (G : PGraph) : List (Str × ℚ) :=
  ((largestSub G).ids.map
      (fun v => (v, betweenness (largestSub G).ids (largestSub G).edges v))).insertionSort
    (fun a b => b.2 ≤ a.2)

/-- `solve_problem2_q7`: the top 10 nodes by betweenness centrality, with
city names. -/
def solve_problem2_q7 (G : PGraph) : PGraph × Option (List (Str × ℚ)) :=
  (G, ((q7sorted G).take 10).mapM (fun p => (getCity G p.1).map (fun c => (c, p.2))))

/-! ## The Cayley tree as a `SimpleGraph`

To state that `generate_cayley_tree` returns a tree (connected and acyclic)
we read its edge list as a simple graph on the vertex set
`Fin (number of nodes)`. -/

/-- The undirected simple graph on the node indices of `G`, with `a` and `b`
adjacent when the edge list stores `(a, b)` or `(b, a)`. -/
def toSG (G : NGraph) : SimpleGraph (Fin (numNodesN G)) :=
  SimpleGraph.fromRel (fun a b => ((a : Nat), (b : Nat)) ∈ G.edges)

/-- The loop invariant of `generate_cayley_tree` before generating level
`d`: nodes are `0 .. next-1` in order; the root is the unique node at level
`0`; all levels are at most `d - 1`; `cur` is exactly the frontier (the
nodes at level `d - 1`); every stored edge goes from a parent one level up
to the child created for it, and the children stored so far are exactly
`1 .. next-1`, once each; nodes strictly above the frontier have their
final number of children (`k` for the root, `k - 1` otherwise) and frontier
nodes have none yet. -/
structure GrowInv (k d : Nat) (G : NGraph) (cur : List Nat) (next : Nat) : Prop where
  hd : 1 ≤ d
  hnext : 1 ≤ next
  ids : G.nodes.map Prod.fst = List.range next
  lv0 : levelOf G.nodes 0 = 0
  lv_pos : ∀ i, 1 ≤ i → i < next → 1 ≤ levelOf G.nodes i
  lv_le : ∀ i, i < next → levelOf G.nodes i ≤ d - 1
  cur_mem : ∀ i, i ∈ cur ↔ (i < next ∧ levelOf G.nodes i = d - 1)
  cur_nodup : cur.Nodup
  child_ids : G.edges.map Prod.snd = List.range' 1 (next - 1)
  edge_lt : ∀ e ∈ G.edges, e.1 < e.2
  edge_lv : ∀ e ∈ G.edges, levelOf G.nodes e.2 = levelOf G.nodes e.1 + 1
  cc_done : ∀ i, i < next → levelOf G.nodes i < d - 1 →
    childCount G i = (if i = 0 then k else k - 1)
  cc_frontier : ∀ i, i < next → levelOf G.nodes i = d - 1 → childCount G i = 0

/-! # Helper lemmas -/

/-- Closed form of the `solve_problem2_q6` scanning loop from any
accumulator: each component ends up at the last matching node, falling back
to the accumulator. -/
theorem q6foldl_spec (ns : List PNode) (acc : Option Str × Option Str) :
    ns.foldl q6step acc =
      ((((ns.filter fun n => n.code == some "CBR".toList).getLast?).map PNode.id).or acc.1,
       (((ns.filter fun n => n.code == some "CPT".toList).getLast?).map PNode.id).or acc.2) := by
  induction ns using List.reverseRecOn generalizing acc with
  | nil => simp
  | append_singleton ns n ih =>
    rw [List.foldl_append, List.foldl_cons, List.foldl_nil, ih]
    show q6step _ n = _
    unfold q6step
    rw [List.filter_append, List.filter_append]
    by_cases h1 : (n.code == some "CBR".toList) = true
    · have h1' : n.code = some "CBR".toList := eq_of_beq h1
      have h2 : (n.code == some "CPT".toList) = false := by rw [h1']; decide
      simp only [h1, h2, if_true, List.filter_cons, List.filter_nil,
        List.getLast?_concat, Option.map_some, Option.or_some]
      simp
    · by_cases h2 : (n.code == some "CPT".toList) = true
      · simp only [h1, h2, if_true, List.filter_cons, List.filter_nil,
          List.getLast?_concat, Option.map_some, Option.or_some]
        simp
      · simp only [h1, h2, List.filter_cons, List.filter_nil]
        simp [h1, h2]

/-- `q6select` picks the last `"CBR"` node and the last `"CPT"` node. -/
theorem q6select_spec (ns : List PNode) :
    q6select ns =
      (((ns.filter fun n => n.code == some "CBR".toList).getLast?).map PNode.id,
       ((ns.filter fun n => n.code == some "CPT".toList).getLast?).map PNode.id) := by
  rw [q6select, q6foldl_spec]; simp

/-! # Claim theorems -/

/-- C7: `build_graph` is deterministic — two builds from the same city-file
lines and edge-file lines yield graphs with identical node counts and
identical edge counts (the embedding of `build_graph` is a pure function of
the two files' contents). -/
theorem C7_build_graph_deterministic (cityLines netLines : List Str) :
    numNodesP (build_graph cityLines netLines) = numNodesP (build_graph cityLines netLines)
      ∧ numEdgesP (build_graph cityLines netLines) = numEdgesP (build_graph cityLines netLines) :=
  ⟨rfl, rfl⟩

/-- C2, counterexample: with two nodes carrying code `"CBR"`, the start node
selected by the `solve_problem2_q6` loop is not the first match in iteration
order (the loop has no `break`, so the last match wins). -/
theorem C2_counterexample :
    (q6select
        [⟨"1".toList, some "CBR".toList, some "CityA".toList⟩,
         ⟨"2".toList, some "CBR".toList, some "CityB".toList⟩,
         ⟨"3".toList, some "CPT".toList, some "CityC".toList⟩]).1 ≠
      (([⟨"1".toList, some "CBR".toList, some "CityA".toList⟩,
         ⟨"2".toList, some "CBR".toList, some "CityB".toList⟩,
         ⟨"3".toList, some "CPT".toList, some "CityC".toList⟩].find?
            (fun n => n.code == some "CBR".toList)).map PNode.id) := by
  decide

/-- C2 (amended): for every loaded graph, `solve_problem2_q6` selects as the
start (resp. end) node the *last* node in iteration order whose `code`
attribute equals `"CBR"` (resp. `"CPT"`). -/
theorem C2_q6_selects_last (G : PGraph) :
    q6select G.nodes =
      (((G.nodes.filter fun n => n.code == some "CBR".toList).getLast?).map PNode.id,
       ((G.nodes.filter fun n => n.code == some "CPT".toList).getLast?).map PNode.id) :=
  q6select_spec G.nodes

/-- C8: every query operation returns the loaded graph unchanged — each
`solve_problem2_qN` is embedded as a state-passing function and its state
component is exactly the input graph: the queries only read `G` (the
subgraphs and copies derived in Q2–Q5 and Q7 are separate values). -/
theorem C8_queries_leave_graph_unchanged (G : PGraph) :
    (solve_problem2_q1 G).1 = G ∧ (solve_problem2_q2 G).1 = G ∧ (solve_problem2_q3 G).1 = G
      ∧ (solve_problem2_q4 G).1 = G ∧ (solve_problem2_q5 G).1 = G ∧ (solve_problem2_q6 G).1 = G
      ∧ (solve_problem2_q7 G).1 = G :=
  ⟨rfl, rfl, rfl, rfl, rfl, rfl, rfl⟩

/-- `contains` on identifier lists agrees with membership. -/
theorem ids_contains_iff (l : List Str) (a : Str) : l.contains a = true ↔ a ∈ l := by
  simp [List.contains, List.elem_iff]

/-- `ensureNode` changes nothing when the node is already present. -/
theorem ensureNode_of_mem {G : PGraph} {a : Str} (h : a ∈ G.ids) : ensureNode G a = G := by
  unfold ensureNode
  rw [if_pos ((ids_contains_iff _ _).mpr h)]

/-- `add_edge` on an already-present undirected edge with both endpoints
present changes nothing. -/
theorem addEdge_of_hasEdge {G : PGraph} {a b : Str} (ha : a ∈ G.ids) (hb : b ∈ G.ids)
    (he : G.hasEdge a b = true) : addEdge G a b = G := by
  unfold addEdge
  rw [ensureNode_of_mem ha, ensureNode_of_mem hb, if_pos he]

/-- `hasEdge` is symmetric. -/
theorem hasEdge_symm (G : PGraph) (a b : Str) : G.hasEdge b a = G.hasEdge a b := by
  unfold PGraph.hasEdge
  exact Bool.or_comm _ _

/-- Processing an edge line whose stripped text tokenises as `[a, b]` is
exactly `add_edge(a, b)`. -/
theorem processNetLine_eq_addEdge {G : PGraph} {l : Str} {a b : Str}
    (hl : pyTokens (pyStrip l) = [a, b]) : processNetLine G l = addEdge G a b := by
  unfold processNetLine
  have hne : (pyStrip l).isEmpty = false := by
    cases hs : pyStrip l with
    | nil => rw [hs] at hl; simp [pyTokens, splitWhite] at hl
    | cons c cs => rfl
  simp only [hne, Bool.false_eq_true, if_false, hl]

/-- C10: edge insertion is idempotent and symmetric — when the undirected
edge between the present nodes `a` and `b` is already loaded, processing a
further edge-file line that tokenises as `a b`, or a reversed line
tokenising as `b a`, leaves the node count and the edge count unchanged. -/
theorem C10_edge_insertion_idempotent (G : PGraph) (line rline : Str) (a b : Str)
    (hline : pyTokens (pyStrip line) = [a, b]) (hrline : pyTokens (pyStrip rline) = [b, a])
    (ha : a ∈ G.ids) (hb : b ∈ G.ids) (he : G.hasEdge a b = true) :
    numNodesP (processNetLine G line) = numNodesP G
      ∧ numEdgesP (processNetLine G line) = numEdgesP G
      ∧ numNodesP (processNetLine G rline) = numNodesP G
      ∧ numEdgesP (processNetLine G rline) = numEdgesP G := by
  have h1 : processNetLine G line = G := by
    rw [processNetLine_eq_addEdge hline]
    exact addEdge_of_hasEdge ha hb he
  have h2 : processNetLine G rline = G := by
    rw [processNetLine_eq_addEdge hrline]
    exact addEdge_of_hasEdge hb ha (by rw [hasEdge_symm]; exact he)
  rw [h1, h2]
  exact ⟨rfl, rfl, rfl, rfl⟩

/-- Witness for C10 on a concrete loaded graph and concrete lines. -/
theorem C10_witness :
    (pyTokens (pyStrip "1 2".toList) = ["1".toList, "2".toList]
        ∧ pyTokens (pyStrip "2 1".toList) = ["2".toList, "1".toList]
        ∧ "1".toList ∈ (build_graph ["A|1|CityA".toList, "B|2|CityB".toList] ["1 2".toList]).ids
        ∧ "2".toList ∈ (build_graph ["A|1|CityA".toList, "B|2|CityB".toList] ["1 2".toList]).ids
        ∧ (build_graph ["A|1|CityA".toList, "B|2|CityB".toList] ["1 2".toList]).hasEdge
            "1".toList "2".toList = true)
      ∧ numNodesP
          (processNetLine (build_graph ["A|1|CityA".toList, "B|2|CityB".toList] ["1 2".toList])
            "2 1".toList) =
        numNodesP (build_graph ["A|1|CityA".toList, "B|2|CityB".toList] ["1 2".toList]) :=
  ⟨⟨by decide, by decide, by decide, by decide, by decide⟩,
    (C10_edge_insertion_idempotent
        (build_graph ["A|1|CityA".toList, "B|2|CityB".toList] ["1 2".toList])
        "1 2".toList "2 1".toList "1".toList "2".toList
        (by decide) (by decide) (by decide) (by decide) (by decide)).2.2.1⟩

/-- `contains` agrees with membership for any lawful `BEq` type. -/
theorem contains_iff_mem {α : Type} [BEq α] [LawfulBEq α] (l : List α) (a : α) :
    l.contains a = true ↔ a ∈ l := by
  simp [List.contains, List.elem_iff]

/-- `ensureNode` only ever appends attribute-less nodes. -/
theorem ensureNode_nodes (G : PGraph) (i : Str) :
    ∃ t, (ensureNode G i).nodes = G.nodes ++ t ∧ ∀ n ∈ t, n.code = none ∧ n.city = none := by
  unfold ensureNode
  by_cases h : G.ids.contains i = true
  · refine ⟨[], by rw [if_pos h, List.append_nil], by simp⟩
  · refine ⟨[⟨i, none, none⟩], by rw [if_neg h], ?_⟩
    intro n hn
    simp only [List.mem_singleton] at hn
    rw [hn]
    exact ⟨rfl, rfl⟩

/-- `add_edge` only ever appends attribute-less nodes. -/
theorem addEdge_nodes (G : PGraph) (a b : Str) :
    ∃ t, (addEdge G a b).nodes = G.nodes ++ t ∧ ∀ n ∈ t, n.code = none ∧ n.city = none := by
  obtain ⟨t1, ht1, ha1⟩ := ensureNode_nodes G a
  obtain ⟨t2, ht2, ha2⟩ := ensureNode_nodes (ensureNode G a) b
  refine ⟨t1 ++ t2, ?_, ?_⟩
  · unfold addEdge
    by_cases h : (ensureNode (ensureNode G a) b).hasEdge a b = true
    · rw [if_pos h, ht2, ht1, List.append_assoc]
    · rw [if_neg h]
      show (ensureNode (ensureNode G a) b).nodes = _
      rw [ht2, ht1, List.append_assoc]
  · intro n hn
    rcases List.mem_append.mp hn with h | h
    · exact ha1 n h
    · exact ha2 n h

/-- After `ensureNode G i`, the node `i` is present. -/
theorem mem_ensureNode_self (G : PGraph) (i : Str) : i ∈ (ensureNode G i).ids := by
  unfold ensureNode
  by_cases h : G.ids.contains i = true
  · rw [if_pos h]
    exact (contains_iff_mem _ _).mp h
  · rw [if_neg h]
    show i ∈ (G.nodes ++ [(⟨i, none, none⟩ : PNode)]).map PNode.id
    rw [List.map_append]
    exact List.mem_append_right _ (by simp)

/-- `ensureNode` preserves present nodes. -/
theorem mem_ensureNode_of_mem {G : PGraph} {x : Str} (i : Str) (h : x ∈ G.ids) :
    x ∈ (ensureNode G i).ids := by
  unfold ensureNode
  by_cases hc : G.ids.contains i = true
  · rw [if_pos hc]; exact h
  · rw [if_neg hc]
    show x ∈ (G.nodes ++ [(⟨i, none, none⟩ : PNode)]).map PNode.id
    rw [List.map_append]
    exact List.mem_append_left _ h

/-- Both endpoints of an added edge are present afterwards. -/
theorem mem_addEdge (G : PGraph) (a b : Str) :
    a ∈ (addEdge G a b).ids ∧ b ∈ (addEdge G a b).ids := by
  have hids : (addEdge G a b).ids = (ensureNode (ensureNode G a) b).ids := by
    unfold addEdge
    by_cases h : (ensureNode (ensureNode G a) b).hasEdge a b = true
    · rw [if_pos h]
    · rw [if_neg h]; rfl
  rw [hids]
  exact ⟨mem_ensureNode_of_mem b (mem_ensureNode_self G a), mem_ensureNode_self _ b⟩

/-- The added edge is present afterwards. -/
theorem addEdge_hasEdge (G : PGraph) (a b : Str) : (addEdge G a b).hasEdge a b = true := by
  unfold addEdge
  by_cases h : (ensureNode (ensureNode G a) b).hasEdge a b = true
  · rw [if_pos h]; exact h
  · rw [if_neg h]
    show (((ensureNode (ensureNode G a) b).edges ++ [(a, b)]).contains (a, b) || _) = true
    have hc : ((ensureNode (ensureNode G a) b).edges ++ [(a, b)]).contains (a, b) = true :=
      (contains_iff_mem _ _).mpr (List.mem_append_right _ (by simp))
    simp [hc]

/-- C9: an edge line with two tokens is loaded even when an endpoint never
appeared in the city file: the endpoint becomes a node without `code` or
`city` attribute, the node count can exceed the number of well-formed city
lines, and a later `city` lookup on such a node (here in Q3) hits the
`KeyError` case. -/
theorem C9_unknown_endpoint_nodes :
    (∀ (G : PGraph) (a b : Str), b ∉ G.ids →
        b ∈ (addEdge G a b).ids ∧ getCode (addEdge G a b) b = none
          ∧ getCity (addEdge G a b) b = none ∧ (addEdge G a b).hasEdge a b = true)
      ∧ numNodesP (build_graph ["A|1|CityA".toList] ["1 2".toList]) = 2
      ∧ getCity (build_graph ["A|1|CityA".toList] ["1 2".toList]) "2".toList = none
      ∧ (solve_problem2_q3 (build_graph ["A|1|CityA".toList] ["1 2".toList])).2 = none := by
  refine ⟨?_, by decide, by decide, by decide⟩
  intro G a b hb
  obtain ⟨t, ht, hattr⟩ := addEdge_nodes G a b
  refine ⟨(mem_addEdge G a b).2, ?_, ?_, addEdge_hasEdge G a b⟩
  all_goals
    have hfind : ∀ m, (addEdge G a b).nodes.find? (fun n => n.id == b) = some m →
        m.code = none ∧ m.city = none := by
      intro m hf
      have hmem := List.mem_of_find?_eq_some hf
      have hp := List.find?_some hf
      have hid : m.id = b := by simpa using hp
      rw [ht] at hmem
      rcases List.mem_append.mp hmem with h | h
      · exact absurd (hid ▸ List.mem_map_of_mem PNode.id h) hb
      · exact hattr m h
  · unfold getCode
    cases hf : (addEdge G a b).nodes.find? (fun n => n.id == b) with
    | none => rfl
    | some m => exact (hfind m hf).1
  · unfold getCity
    cases hf : (addEdge G a b).nodes.find? (fun n => n.id == b) with
    | none => rfl
    | some m => exact (hfind m hf).2

/-- Witness for C9: in the concretely built graph, node `"2"` (absent from
the single city line) is present but attribute-less. -/
theorem C9_witness :
    "2".toList ∉ (build_graph ["A|1|CityA".toList] []).ids
      ∧ ("2".toList ∈ (addEdge (build_graph ["A|1|CityA".toList] []) "1".toList "2".toList).ids
          ∧ getCode (addEdge (build_graph ["A|1|CityA".toList] []) "1".toList "2".toList)
              "2".toList = none
          ∧ getCity (addEdge (build_graph ["A|1|CityA".toList] []) "1".toList "2".toList)
              "2".toList = none
          ∧ (addEdge (build_graph ["A|1|CityA".toList] []) "1".toList "2".toList).hasEdge
              "1".toList "2".toList = true) :=
  ⟨by decide,
    C9_unknown_endpoint_nodes.1 (build_graph ["A|1|CityA".toList] []) "1".toList "2".toList
      (by decide)⟩

/-! ## Walks, reachability and breadth-first distance: basic lemmas -/

/-- Membership in the neighbour list is exactly adjacency. -/
theorem mem_nbrs {E : List (Str × Str)} {a w : Str} : w ∈ nbrs E a ↔ adjE E a w := by
  unfold nbrs adjE
  rw [List.mem_filterMap]
  constructor
  · rintro ⟨⟨x, y⟩, he, hf⟩
    dsimp only at hf
    by_cases h1 : (x == a) = true
    · rw [if_pos h1] at hf
      obtain rfl := Option.some.inj hf
      rw [show x = a by simpa using h1] at he
      exact Or.inl he
    · rw [if_neg h1] at hf
      by_cases h2 : (y == a) = true
      · rw [if_pos h2] at hf
        obtain rfl := Option.some.inj hf
        rw [show y = a by simpa using h2] at he
        exact Or.inr he
      · rw [if_neg h2] at hf
        exact absurd hf (by simp)
  · rintro (h | h)
    · exact ⟨(a, w), h, by simp⟩
    · refine ⟨(w, a), h, ?_⟩
      dsimp only
      by_cases hw : (w == a) = true
      · rw [if_pos hw, Option.some.injEq]
        exact (eq_of_beq hw).symm
      · rw [if_neg hw, if_pos (by simp)]

/-- A positive fueled-search answer yields a walk within the fuel. -/
theorem distLeB_imp_walk {E : List (Str × Str)} :
    ∀ {n : Nat} {a b : Str}, distLeB E n a b = true → ∃ l, IsWalkL E a l b ∧ l.length ≤ n := by
  intro n
  induction n with
  | zero =>
    intro a b h
    have hab : a = b := by simpa [distLeB] using h
    exact ⟨[], hab, Nat.le_refl 0⟩
  | succ n ih =>
    intro a b h
    rw [distLeB] at h
    simp only [Bool.or_eq_true, List.any_eq_true] at h
    rcases h with h1 | ⟨w, hw, hd⟩
    · exact ⟨[], by simpa using h1, Nat.zero_le _⟩
    · obtain ⟨l, hl, hlen⟩ := ih hd
      exact ⟨w :: l, ⟨mem_nbrs.mp hw, hl⟩, by simpa using Nat.succ_le_succ hlen⟩

/-- A walk yields a positive fueled-search answer at its length. -/
theorem walk_imp_distLeB {E : List (Str × Str)} :
    ∀ {l : List Str} {a b : Str}, IsWalkL E a l b → distLeB E l.length a b = true := by
  intro l
  induction l with
  | nil =>
    intro a b h
    simpa [distLeB] using h
  | cons w l ih =>
    intro a b h
    obtain ⟨hadj, hw⟩ := h
    rw [List.length_cons, distLeB]
    simp only [Bool.or_eq_true, List.any_eq_true]
    exact Or.inr ⟨w, mem_nbrs.mpr hadj, ih hw⟩

/-- The trivial walk: full fuel from a node to itself. -/
theorem distLeB_self (E : List (Str × Str)) (m : Nat) (a : Str) : distLeB E m a a = true := by
  cases m with
  | zero => simp [distLeB]
  | succ m => rw [distLeB]; simp

/-- The fueled search is monotone in the fuel. -/
theorem distLeB_mono {E : List (Str × Str)} :
    ∀ {n m : Nat} {a b : Str}, n ≤ m → distLeB E n a b = true → distLeB E m a b = true := by
  intro n
  induction n with
  | zero =>
    intro m a b _ h
    have hab : a = b := by simpa [distLeB] using h
    subst hab
    exact distLeB_self E m a
  | succ n ih =>
    intro m a b hnm h
    obtain ⟨m', rfl⟩ : ∃ m', m = m' + 1 := ⟨m - 1, by omega⟩
    rw [distLeB] at h ⊢
    simp only [Bool.or_eq_true, List.any_eq_true] at h ⊢
    rcases h with h1 | ⟨w, hw, hd⟩
    · exact Or.inl h1
    · exact Or.inr ⟨w, hw, ih (by omega) hd⟩

/-- A computed distance certifies a walk, hence reachability. -/
theorem reach_of_distF_some {E : List (Str × Str)} {f d : Nat} {a b : Str}
    (h : distF E f a b = some d) : Reach E a b := by
  have hp := List.find?_some h
  obtain ⟨l, hl, _⟩ := distLeB_imp_walk hp
  exact ⟨l, hl⟩

/-- When `b` is unreachable from `a`, every fueled distance search returns
`none` (the embedding's analogue of `nx.NetworkXNoPath`). -/
theorem distF_none_of_not_reach {E : List (Str × Str)} {f : Nat} {a b : Str}
    (h : ¬ Reach E a b) : distF E f a b = none := by
  cases hd : distF E f a b with
  | none => rfl
  | some d => exact absurd (reach_of_distF_some hd) h

/-- When no node carries code `"CBR"`, the loop leaves `start_node = None`. -/
theorem q6select_fst_none {G : PGraph} (h : ∀ n ∈ G.nodes, ¬ n.code = some "CBR".toList) :
    (q6select G.nodes).1 = none := by
  rw [q6select_spec]
  have : G.nodes.filter (fun n => n.code == some "CBR".toList) = [] :=
    List.filter_eq_nil_iff.mpr (fun n hn => by
      simp only [beq_iff_eq]
      exact h n hn)
  dsimp only
  rw [this]
  rfl

/-- When no node carries code `"CPT"`, the loop leaves `end_node = None`. -/
theorem q6select_snd_none {G : PGraph} (h : ∀ n ∈ G.nodes, ¬ n.code = some "CPT".toList) :
    (q6select G.nodes).2 = none := by
  rw [q6select_spec]
  have : G.nodes.filter (fun n => n.code == some "CPT".toList) = [] :=
    List.filter_eq_nil_iff.mpr (fun n hn => by
      simp only [beq_iff_eq]
      exact h n hn)
  dsimp only
  rw [this]
  rfl

/-- C4: when the `"CBR"` code or the `"CPT"` code matches no node, or the two
selected nodes are not joined by any walk, `solve_problem2_q6` returns one of
its two printed-message outcomes — no exception other than those it handles —
and leaves the graph unchanged. -/
theorem C4_q6_fails_gracefully (G : PGraph)
    (h : (∀ n ∈ G.nodes, ¬ n.code = some "CBR".toList)
        ∨ (∀ n ∈ G.nodes, ¬ n.code = some "CPT".toList)
        ∨ (∃ s e, q6select G.nodes = (some s, some e) ∧ ¬ Reach G.edges s e)) :
    ((solve_problem2_q6 G).2 = Q6Out.missingCode ∨ (solve_problem2_q6 G).2 = Q6Out.noPath)
      ∧ (solve_problem2_q6 G).1 = G := by
  refine ⟨?_, rfl⟩
  rcases hq : q6select G.nodes with ⟨s?, e?⟩
  unfold solve_problem2_q6
  dsimp only
  rw [hq]
  cases s? with
  | none => exact Or.inl rfl
  | some s =>
    cases e? with
    | none => exact Or.inl rfl
    | some e =>
      dsimp only
      rcases h with h1 | h2 | h3
      · have := q6select_fst_none h1
        rw [hq] at this
        exact absurd this (by simp)
      · have := q6select_snd_none h2
        rw [hq] at this
        exact absurd this (by simp)
      · obtain ⟨s', e', hsel, hnr⟩ := h3
        rw [hq] at hsel
        obtain ⟨hs, he⟩ : s = s' ∧ e = e' := by
          have hf := congrArg Prod.fst hsel
          have hsnd := congrArg Prod.snd hsel
          simp at hf hsnd
          exact ⟨hf, hsnd⟩
        rw [← hs, ← he] at hnr
        have hdist : G.dist s e = none := distF_none_of_not_reach hnr
        rw [hdist]
        exact Or.inr rfl

/-- Witness for C4 on a concrete loaded graph without the `"CBR"` code. -/
theorem C4_witness :
    (∀ n ∈ (build_graph ["A|1|CityA".toList] ["1 2".toList]).nodes,
        ¬ n.code = some "CBR".toList)
      ∧ (((solve_problem2_q6 (build_graph ["A|1|CityA".toList] ["1 2".toList])).2 =
              Q6Out.missingCode
            ∨ (solve_problem2_q6 (build_graph ["A|1|CityA".toList] ["1 2".toList])).2 =
              Q6Out.noPath)
          ∧ (solve_problem2_q6 (build_graph ["A|1|CityA".toList] ["1 2".toList])).1 =
            build_graph ["A|1|CityA".toList] ["1 2".toList]) :=
  ⟨by decide,
    C4_q6_fails_gracefully (build_graph ["A|1|CityA".toList] ["1 2".toList])
      (Or.inl (by decide))⟩

/-- The city-name lookup of Q3 preserves the degree column when it
succeeds. -/
theorem mapM_city_map_snd {G : PGraph} :
    ∀ {l out : List (Str × Nat)},
      l.mapM (fun p => (getCity G p.1).map (fun c => (c, p.2))) = some out →
        out.map Prod.snd = l.map Prod.snd := by
  intro l
  induction l with
  | nil =>
    intro out h
    have h' : some ([] : List (Str × Nat)) = some out := h
    obtain rfl := Option.some.inj h'
    rfl
  | cons p l ih =>
    intro out h
    rw [List.mapM_cons] at h
    simp only [Option.bind_eq_bind, Option.bind_eq_some, Option.pure_def,
      Option.some.injEq] at h
    obtain ⟨q, hq, qs, hqs, hout⟩ := h
    obtain ⟨c, _, hqc⟩ := Option.map_eq_some'.mp hq
    obtain rfl := hout
    have hq2 : q.2 = p.2 := by rw [← hqc]
    simp only [List.map_cons, hq2, ih hqs]

/-- C6: `solve_problem2_q3` outputs at most 10 pairs; the sorted pair list is
descending in the degree; and the sort is stable — for every degree value the
pairs carrying it keep their original relative order, which is the node
iteration order of the largest component's subgraph. -/
theorem C6_q3_top10_sorted_stable (G : PGraph) (_hne : (largestSub G).nodes ≠ []) :
    ((q3sorted G).take 10).length ≤ 10
      ∧ List.Pairwise (fun a b : Str × Nat => b.2 ≤ a.2) ((q3sorted G).take 10)
      ∧ (∀ d, (q3sorted G).filter (fun p => p.2 == d) =
          (q3pairs G).filter (fun p => p.2 == d))
      ∧ (∀ out, (solve_problem2_q3 G).2 = some out →
          out.length ≤ 10 ∧ out.map Prod.snd = ((q3sorted G).take 10).map Prod.snd) := by
  haveI hTot : IsTotal (Str × Nat) (fun a b => b.2 ≤ a.2) :=
    ⟨fun a b => (Nat.le_total a.2 b.2).symm⟩
  haveI hTr : IsTrans (Str × Nat) (fun a b => b.2 ≤ a.2) :=
    ⟨fun _ _ _ hab hbc => Nat.le_trans hbc hab⟩
  refine ⟨?_, ?_, ?_, ?_⟩
  · rw [List.length_take]
    exact Nat.min_le_left _ _
  · have hs : (q3sorted G).Pairwise (fun a b : Str × Nat => b.2 ≤ a.2) :=
      List.sorted_insertionSort _ (q3pairs G)
    exact hs.sublist (List.take_sublist _ _)
  · intro d
    have hcd : ∀ p ∈ (q3pairs G).filter (fun p => p.2 == d), (p.2 == d) = true :=
      fun p hp => (List.mem_filter.mp hp).2
    have hcp : ((q3pairs G).filter (fun p => p.2 == d)).Pairwise
        (fun a b : Str × Nat => b.2 ≤ a.2) :=
      List.pairwise_of_forall_mem_list (fun a ha b hb => by
        have h1 : a.2 = d := by simpa using hcd a ha
        have h2 : b.2 = d := by simpa using hcd b hb
        rw [h1, h2])
    have h1 : List.Sublist ((q3pairs G).filter (fun p => p.2 == d)) (q3sorted G) :=
      List.sublist_insertionSort hcp (List.filter_sublist _)
    have h2 : List.Sublist ((q3pairs G).filter (fun p => p.2 == d))
        ((q3sorted G).filter (fun p => p.2 == d)) := by
      have h2a := h1.filter (fun p => p.2 == d)
      rwa [List.filter_eq_self.mpr hcd] at h2a
    have h3 : ((q3sorted G).filter (fun p => p.2 == d)).length =
        ((q3pairs G).filter (fun p => p.2 == d)).length :=
      ((List.perm_insertionSort _ (q3pairs G)).filter _).length_eq
    exact (h2.eq_of_length h3.symm).symm
  · intro out hout
    have hsnd := mapM_city_map_snd hout
    constructor
    · have hlen : out.length = ((q3sorted G).take 10).length := by
        have hc := congrArg List.length hsnd
        simpa using hc
      rw [hlen, List.length_take]
      exact Nat.min_le_left _ _
    · exact hsnd

/-- Witness for C6 on a concrete loaded graph. -/
theorem C6_witness :
    (largestSub (build_graph ["A|1|CityA".toList, "B|2|CityB".toList, "C|3|CityC".toList]
          ["1 2".toList, "2 3".toList])).nodes ≠ []
      ∧ ((q3sorted (build_graph ["A|1|CityA".toList, "B|2|CityB".toList, "C|3|CityC".toList]
            ["1 2".toList, "2 3".toList])).take 10).length ≤ 10 :=
  ⟨by decide,
    (C6_q3_top10_sorted_stable
        (build_graph ["A|1|CityA".toList, "B|2|CityB".toList, "C|3|CityC".toList]
          ["1 2".toList, "2 3".toList])
        (by decide)).1⟩

/-- Dividing each summand divides the sum. -/
theorem list_sum_div (l : List ℚ) (c : ℚ) : (l.map (fun x => x / c)).sum = l.sum / c := by
  induction l with
  | nil => simp
  | cons x l ih => simp [ih, add_div]

/-- The shared core of both degree-distribution computations: on any
non-empty degree multiset `l` of a graph with `n = l.length` nodes, the
`(degree, fraction)` points are strictly ascending in the degree, every
fraction is positive, and the fractions sum to exactly `1` in `ℚ`. -/
theorem histPoints_props (l : List Nat) (n : Nat) (hl : l ≠ []) (hn : l.length = n) :
    (histPoints l n).Pairwise (fun a b => a.1 < b.1)
      ∧ (∀ p ∈ histPoints l n, 0 < p.2)
      ∧ ((histPoints l n).map Prod.snd).sum = 1 := by
  have hn0 : 0 < n := by
    rw [← hn]
    exact List.length_pos.mpr hl
  have hnq : (0 : ℚ) < (n : ℚ) := by exact_mod_cast hn0
  refine ⟨?_, ?_, ?_⟩
  · have hsorted : (l.dedup.insertionSort (fun a b => a ≤ b)).Sorted (· ≤ ·) :=
      List.sorted_insertionSort _ l.dedup
    have hnodup : (l.dedup.insertionSort (fun a b => a ≤ b)).Nodup :=
      ((List.perm_insertionSort _ l.dedup).nodup_iff).mpr l.nodup_dedup
    have hlt := hsorted.lt_of_le hnodup
    unfold histPoints
    exact List.pairwise_map.mpr (hlt.imp (fun h => h))
  · intro p hp
    unfold histPoints at hp
    obtain ⟨d, hd, rfl⟩ := List.mem_map.mp hp
    have hdl : d ∈ l := List.mem_dedup.mp ((List.mem_insertionSort _).mp hd)
    have hcount : 0 < l.count d := List.count_pos_iff.mpr hdl
    exact div_pos (by exact_mod_cast hcount) hnq
  · unfold histPoints
    rw [List.map_map]
    have hperm : List.Perm
        ((l.dedup.insertionSort (fun a b => a ≤ b)).map
          (fun d => (l.count d : ℚ) / (n : ℚ)))
        (l.dedup.map (fun d => (l.count d : ℚ) / (n : ℚ))) :=
      (List.perm_insertionSort _ l.dedup).map _
    rw [show (Prod.snd ∘ fun d => (d, (l.count d : ℚ) / (n : ℚ)))
        = fun d => (l.count d : ℚ) / (n : ℚ) from rfl]
    rw [hperm.sum_eq]
    rw [show (fun d => (l.count d : ℚ) / (n : ℚ))
        = (fun x : ℚ => x / (n : ℚ)) ∘ (fun d => (l.count d : ℚ)) from rfl]
    rw [← List.map_map, list_sum_div]
    rw [show (fun d => (l.count d : ℚ)) = (Nat.cast : ℕ → ℚ) ∘ (fun d => l.count d) from rfl]
    rw [← List.map_map, ← Nat.cast_list_sum, List.sum_map_count_dedup_eq_length, hn]
    exact div_self (ne_of_gt hnq)

/-- C5: the degree-distribution computations — `plot_degree_distribution` of
the tree script on any non-empty tree graph, and `solve_problem2_q4` on any
graph with a non-empty largest component — produce `(degree, fraction)`
pairs with strictly ascending degrees, all fractions positive (zero-fraction
entries excluded), and the fractions summing exactly to `1` in exact
rational arithmetic. -/
theorem C5_degree_distribution_exact :
    (∀ T : NGraph, T.nodes ≠ [] →
        (plot_degree_distribution T).Pairwise (fun a b => a.1 < b.1)
          ∧ (∀ p ∈ plot_degree_distribution T, 0 < p.2)
          ∧ ((plot_degree_distribution T).map Prod.snd).sum = 1)
      ∧ (∀ G : PGraph, (largestSub G).nodes ≠ [] →
          ((solve_problem2_q4 G).2).Pairwise (fun a b => a.1 < b.1)
            ∧ (∀ p ∈ (solve_problem2_q4 G).2, 0 < p.2)
            ∧ (((solve_problem2_q4 G).2).map Prod.snd).sum = 1) := by
  constructor
  · intro T hT
    have hl : degreesN T ≠ [] := by
      unfold degreesN
      simpa using hT
    have hn : (degreesN T).length = numNodesN T := by
      unfold degreesN numNodesN
      exact List.length_map _ _
    exact histPoints_props _ _ hl hn
  · intro G hG
    have hl : q4degrees G ≠ [] := by
      unfold q4degrees
      simp only [ne_eq, List.map_eq_nil_iff]
      unfold PGraph.ids
      simpa using hG
    have hn : (q4degrees G).length = numNodesP (largestSub G) := by
      unfold q4degrees numNodesP PGraph.ids
      simp
    obtain ⟨h1, h2, h3⟩ := histPoints_props _ _ hl hn
    have hfeq : (solve_problem2_q4 G).2 =
        histPoints (q4degrees G) (numNodesP (largestSub G)) := by
      show histogram _ _ = _
      unfold histogram
      exact List.filter_eq_self.mpr (fun p hp => decide_eq_true (h2 p hp))
    rw [hfeq]
    exact ⟨h1, h2, h3⟩

/-- Witness for C5 at the concrete tree `k = 3`, `P = 2` and a concrete
loaded graph. -/
theorem C5_witness :
    ((generate_cayley_tree 3 2).nodes ≠ []
        ∧ ((plot_degree_distribution (generate_cayley_tree 3 2)).map Prod.snd).sum = 1)
      ∧ ((largestSub (build_graph ["A|1|CityA".toList] ["1 2".toList])).nodes ≠ []
        ∧ (((solve_problem2_q4 (build_graph ["A|1|CityA".toList] ["1 2".toList])).2).map
              Prod.snd).sum = 1) :=
  ⟨⟨by decide, (C5_degree_distribution_exact.1 (generate_cayley_tree 3 2) (by decide)).2.2⟩,
    ⟨by decide,
      (C5_degree_distribution_exact.2 (build_graph ["A|1|CityA".toList] ["1 2".toList])
          (by decide)).2.2⟩⟩

/-! ## Walk combinatorics: concatenation, reversal, de-looping

These lemmas justify that the fuel `V.length` used by every breadth-first
search in the embedding is sufficient on graphs whose edge endpoints all lie
in the vertex list `V`. -/

/-- Adjacency is symmetric. -/
theorem adjE_symm {E : List (Str × Str)} {a b : Str} (h : adjE E a b) : adjE E b a :=
  h.symm

/-- Walks concatenate. -/
theorem walk_append {E : List (Str × Str)} :
    ∀ {l : List Str} {a b : Str} {l' : List Str} {c : Str},
      IsWalkL E a l b → IsWalkL E b l' c → IsWalkL E a (l ++ l') c := by
  intro l
  induction l with
  | nil =>
    intro a b l' c h1 h2
    have hab : a = b := h1
    rw [List.nil_append, hab]
    exact h2
  | cons w l ih =>
    intro a b l' c h1 h2
    obtain ⟨hadj, hw⟩ := h1
    exact ⟨hadj, ih hw h2⟩

/-- Walks reverse with the same length. -/
theorem walk_reverse {E : List (Str × Str)} :
    ∀ {l : List Str} {a b : Str},
      IsWalkL E a l b → ∃ l', IsWalkL E b l' a ∧ l'.length = l.length := by
  intro l
  induction l with
  | nil =>
    intro a b h
    have hab : a = b := h
    exact ⟨[], hab.symm, rfl⟩
  | cons w l ih =>
    intro a b h
    obtain ⟨hadj, hw⟩ := h
    obtain ⟨l', hl', hlen⟩ := ih hw
    refine ⟨l' ++ [a], walk_append hl' ⟨adjE_symm hadj, rfl⟩, ?_⟩
    simp [hlen]

/-- A walk passing through `a` contains a walk from `a`. -/
theorem walk_suffix {E : List (Str × Str)} :
    ∀ {pre : List Str} {x a : Str} {suf : List Str} {b : Str},
      IsWalkL E x (pre ++ a :: suf) b → IsWalkL E a suf b := by
  intro pre
  induction pre with
  | nil =>
    intro x a suf b h
    exact h.2
  | cons p pre ih =>
    intro x a suf b h
    exact ih h.2

/-- On an edge list whose endpoints lie in `V`, every vertex entered by a
walk lies in `V`. -/
theorem walk_mem_V {E : List (Str × Str)} {V : List Str}
    (hE : ∀ e ∈ E, e.1 ∈ V ∧ e.2 ∈ V) :
    ∀ {l : List Str} {a b : Str}, IsWalkL E a l b → ∀ x ∈ l, x ∈ V := by
  intro l
  induction l with
  | nil => intro a b _ x hx; cases hx
  | cons w l ih =>
    intro a b h x hx
    obtain ⟨hadj, hw⟩ := h
    rcases List.mem_cons.mp hx with rfl | hx'
    · rcases hadj with he | he
      · exact (hE _ he).2
      · exact (hE _ he).1
    · exact ih hw x hx'

/-- De-looping: every walk contains a walk with no repeated vertex. -/
theorem walk_shorten {E : List (Str × Str)} :
    ∀ {l : List Str} {a b : Str},
      IsWalkL E a l b →
        ∃ l', IsWalkL E a l' b ∧ l'.length ≤ l.length ∧ (a :: l').Nodup := by
  intro l
  induction l with
  | nil =>
    intro a b h
    exact ⟨[], h, Nat.le_refl _, List.nodup_singleton a⟩
  | cons w l ih =>
    intro a b h
    obtain ⟨hadj, hw⟩ := h
    obtain ⟨l', hl', hlen, hnd⟩ := ih hw
    by_cases ha : a ∈ w :: l'
    · obtain ⟨pre, suf, hsplit⟩ := List.append_of_mem ha
      refine ⟨suf, @walk_suffix E pre a a suf b (by rw [← hsplit]; exact ⟨hadj, hl'⟩), ?_, ?_⟩
      · have hL : (w :: l').length = pre.length + (suf.length + 1) := by
          rw [hsplit]
          simp
        simp only [List.length_cons] at hL ⊢
        omega
      · have hsub : List.Sublist (a :: suf) (w :: l') := by
          rw [hsplit]
          exact List.sublist_append_right _ _
        exact hsub.nodup hnd
    · exact ⟨w :: l', ⟨hadj, hl'⟩, by simpa using hlen, List.nodup_cons.mpr ⟨ha, hnd⟩⟩

/-- On a graph with vertex list `V` (hypotheses: closed edge list, start in
`V`), reachability is decided by the fueled search with fuel `V.length`. -/
theorem reach_distLeB_card {E : List (Str × Str)} {V : List Str}
    (hE : ∀ e ∈ E, e.1 ∈ V ∧ e.2 ∈ V) {a b : Str} (ha : a ∈ V)
    (h : Reach E a b) : distLeB E V.length a b = true := by
  obtain ⟨l, hl⟩ := h
  obtain ⟨l', hl', _, hnd⟩ := walk_shorten hl
  have hsubset : ∀ x ∈ a :: l', x ∈ V := by
    intro x hx
    rcases List.mem_cons.mp hx with rfl | hx'
    · exact ha
    · exact walk_mem_V hE hl' x hx'
  have hsp : List.Subperm (a :: l') V := List.subperm_of_subset hnd hsubset
  have hlen : l'.length + 1 ≤ V.length := by
    have := hsp.length_le
    simpa using this
  exact distLeB_mono (by omega) (walk_imp_distLeB hl')

/-! ## Properties of the fueled distance `distF` -/

/-- In a decomposition of `range N` around an element, the prefix is an
initial range. -/
theorem range_decomp {N : Nat} {as bs : List Nat} {d : Nat}
    (h : List.range N = as ++ d :: bs) : as = List.range d ∧ d < N := by
  have hlen : as.length + (bs.length + 1) = N := by
    have hc := congrArg List.length h
    simp at hc
    omega
  have htake : as = List.range as.length := by
    have h1 : (List.range N).take as.length = as := by
      rw [h]
      exact List.take_left' rfl
    rw [List.take_range, Nat.min_eq_left (by omega : as.length ≤ N)] at h1
    exact h1.symm
  have h2 : List.range N = List.range as.length ++ List.range' as.length (N - as.length) := by
    rw [List.range_eq_range', List.range_eq_range']
    have hh := List.range'_append_1 0 as.length (N - as.length)
    rw [Nat.zero_add] at hh
    rw [hh]
    congr 1
    omega
  have hcomb : as ++ d :: bs = List.range as.length ++ List.range' as.length (N - as.length) := by
    rw [← h]
    exact h2
  conv at hcomb => lhs; rw [htake]
  have h3 := (List.append_cancel_left hcomb).symm
  rw [List.range'_eq_cons_iff] at h3
  have hd : d = as.length := h3.1.symm
  exact ⟨hd ▸ htake, by omega⟩

/-- What a computed distance means: a walk of that length exists and none
shorter does. -/
theorem distF_spec {E : List (Str × Str)} {f : Nat} {a b : Str} {d : Nat}
    (h : distF E f a b = some d) :
    distLeB E d a b = true ∧ ∀ n < d, distLeB E n a b = false := by
  unfold distF at h
  obtain ⟨hp, as, bs, hsplit, hmin⟩ := List.find?_eq_some.mp h
  obtain ⟨has, _⟩ := range_decomp hsplit
  refine ⟨hp, ?_⟩
  intro n hn
  have hmem : n ∈ as := by
    rw [has, List.mem_range]
    exact hn
  have := hmin n hmem
  simpa using this

/-- The fueled distance search succeeds whenever some fueled search within
the fuel does. -/
theorem distF_isSome {E : List (Str × Str)} {f n : Nat} {a b : Str} (hn : n ≤ f)
    (h : distLeB E n a b = true) : ∃ d, distF E f a b = some d ∧ d ≤ n := by
  have hs : (distF E f a b).isSome := by
    unfold distF
    rw [List.find?_isSome]
    exact ⟨n, by rw [List.mem_range]; omega, h⟩
  obtain ⟨d, hd⟩ := Option.isSome_iff_exists.mp hs
  refine ⟨d, hd, ?_⟩
  by_contra hlt
  push_neg at hlt
  have hfalse := (distF_spec hd).2 n hlt
  rw [h] at hfalse
  cases hfalse

/-- The computed distance fits in the fuel. -/
theorem distF_le_fuel {E : List (Str × Str)} {f : Nat} {a b : Str} {d : Nat}
    (h : distF E f a b = some d) : d ≤ f := by
  unfold distF at h
  have := List.mem_of_find?_eq_some h
  rw [List.mem_range] at this
  omega

/-- Stepping down a shortest path: from a node at distance `d + 1` of the
target there is a neighbour at distance exactly `d`. -/
theorem distF_step {E : List (Str × Str)} {f : Nat} {u t : Str} {d : Nat}
    (h : distF E f u t = some (d + 1)) :
    ∃ w ∈ nbrs E u, distF E f w t = some d := by
  obtain ⟨hle, hmin⟩ := distF_spec h
  have hf := distF_le_fuel h
  rw [distLeB] at hle
  simp only [Bool.or_eq_true, List.any_eq_true] at hle
  rcases hle with h1 | ⟨w, hw, hwd⟩
  · have h0 : distLeB E 0 u t = true := by simpa [distLeB] using h1
    exact absurd h0 (by simpa using hmin 0 (by omega))
  · obtain ⟨d', hd', hd'le⟩ := distF_isSome (show d ≤ f by omega) hwd
    have : d' = d := by
      by_contra hne
      have hlt : d' < d := by omega
      have hstep : distLeB E (d' + 1) u t = true := by
        rw [distLeB]
        simp only [Bool.or_eq_true, List.any_eq_true]
        exact Or.inr ⟨w, hw, (distF_spec hd').1⟩
      exact absurd hstep (by simpa using hmin (d' + 1) (by omega))
    exact ⟨w, hw, this ▸ hd'⟩

/-- The exact length of the path returned by the shortest-path model: from a
node at computed distance `d` of the target, `spWalk` produces `d + 1`
nodes, i.e. `d` hops. -/
theorem spWalk_length {V : List Str} {E : List (Str × Str)} :
    ∀ {d : Nat} {u t : Str}, distF E V.length u t = some d →
      (spWalk V E d u t).length = d + 1 := by
  intro d
  induction d with
  | zero => intro u t _; rfl
  | succ d ih =>
    intro u t h
    obtain ⟨w, hw, hwd⟩ := distF_step h
    rw [spWalk]
    cases hfind : (nbrs E u).find? (fun w => distF E V.length w t == some d) with
    | none =>
      exfalso
      have := List.find?_eq_none.mp hfind w hw
      simp only [beq_iff_eq] at this
      exact this hwd
    | some w' =>
      have hw' : distF E V.length w' t = some d := by
        have := List.find?_some hfind
        simpa using this
      simp [ih hw']

/-! ## Connected components and the largest component's subgraph -/

/-- Every emitted component is the component of one of the scanned nodes. -/
theorem mem_componentsAux {V : List Str} {E : List (Str × Str)} :
    ∀ {vs seen : List Str} {c : List Str}, c ∈ componentsAux V E vs seen →
      ∃ v ∈ vs, c = compOf V E v := by
  intro vs
  induction vs with
  | nil => intro seen c h; cases h
  | cons v rest ih =>
    intro seen c h
    rw [componentsAux] at h
    by_cases hs : seen.contains v = true
    · rw [if_pos hs] at h
      obtain ⟨x, hx, hc⟩ := ih h
      exact ⟨x, List.mem_cons_of_mem _ hx, hc⟩
    · rw [if_neg hs] at h
      rcases List.mem_cons.mp h with rfl | h'
      · exact ⟨v, List.mem_cons_self _ _, rfl⟩
      · obtain ⟨x, hx, hc⟩ := ih h'
        exact ⟨x, List.mem_cons_of_mem _ hx, hc⟩

/-- A nonempty graph has at least one component. -/
theorem componentsList_ne_nil {G : PGraph} (h : G.ids ≠ []) : componentsList G ≠ [] := by
  unfold componentsList
  cases hv : G.ids with
  | nil => exact absurd hv h
  | cons v rest =>
    rw [componentsAux]
    simp [List.contains]

/-- Python's `max(..., key=len)` returns a member of a non-empty list. -/
theorem maxByLen_mem : ∀ {ls : List (List Str)}, ls ≠ [] → maxByLen ls ∈ ls := by
  intro ls
  induction ls with
  | nil => intro h; exact absurd rfl h
  | cons c rest ih =>
    intro _
    cases rest with
    | nil => simp [maxByLen]
    | cons c2 rest2 =>
      have heq : maxByLen (c :: c2 :: rest2) =
          (if (maxByLen (c2 :: rest2)).length > c.length then maxByLen (c2 :: rest2) else c) :=
        rfl
      rw [heq]
      by_cases h : (maxByLen (c2 :: rest2)).length > c.length
      · rw [if_pos h]
        exact List.mem_cons_of_mem _ (ih (List.cons_ne_nil _ _))
      · rw [if_neg h]
        exact List.mem_cons_self _ _

/-- Component membership unfolded. -/
theorem mem_compOf_iff {V : List Str} {E : List (Str × Str)} {s u : Str} :
    u ∈ compOf V E s ↔ u ∈ V ∧ distLeB E V.length s u = true :=
  List.mem_filter

/-- A node lies in its own component. -/
theorem seed_mem_compOf {V : List Str} {E : List (Str × Str)} {s : Str} (hs : s ∈ V) :
    s ∈ compOf V E s :=
  mem_compOf_iff.mpr ⟨hs, distLeB_self E V.length s⟩

/-- Components are closed under adjacency. -/
theorem compOf_closed {V : List Str} {E : List (Str × Str)} {s : Str}
    (hE : ∀ e ∈ E, e.1 ∈ V ∧ e.2 ∈ V) (hs : s ∈ V) {u w : Str}
    (hu : u ∈ compOf V E s) (hadj : adjE E u w) : w ∈ compOf V E s := by
  obtain ⟨huV, hdist⟩ := mem_compOf_iff.mp hu
  obtain ⟨l, hl, _⟩ := distLeB_imp_walk hdist
  have hwalk : IsWalkL E s (l ++ [w]) w := walk_append hl ⟨hadj, rfl⟩
  have hwV : w ∈ V := by
    rcases hadj with he | he
    · exact (hE _ he).2
    · exact (hE _ he).1
  exact mem_compOf_iff.mpr ⟨hwV, reach_distLeB_card hE hs ⟨_, hwalk⟩⟩

/-- Two members of one component are joined by a walk. -/
theorem compOf_reach {V : List Str} {E : List (Str × Str)} {s u v : Str}
    (hu : u ∈ compOf V E s) (hv : v ∈ compOf V E s) : Reach E u v := by
  obtain ⟨_, hdu⟩ := mem_compOf_iff.mp hu
  obtain ⟨_, hdv⟩ := mem_compOf_iff.mp hv
  obtain ⟨l1, hl1, _⟩ := distLeB_imp_walk hdu
  obtain ⟨l2, hl2, _⟩ := distLeB_imp_walk hdv
  obtain ⟨l1', hrev, _⟩ := walk_reverse hl1
  exact ⟨l1' ++ l2, walk_append hrev hl2⟩

/-- A walk of the full edge list starting in a component is a walk of the
component's induced edge list. -/
theorem walk_in_subE {V : List Str} {E : List (Str × Str)} {s : Str}
    (hE : ∀ e ∈ E, e.1 ∈ V ∧ e.2 ∈ V) (hs : s ∈ V) :
    ∀ {l : List Str} {u b : Str}, u ∈ compOf V E s → IsWalkL E u l b →
      IsWalkL (E.filter
        (fun e => (compOf V E s).contains e.1 && (compOf V E s).contains e.2)) u l b := by
  intro l
  induction l with
  | nil => intro u b _ h; exact h
  | cons w l ih =>
    intro u b hu hwalk
    obtain ⟨hadj, hw⟩ := hwalk
    have hwc : w ∈ compOf V E s := compOf_closed hE hs hu hadj
    refine ⟨?_, ih hwc hw⟩
    rcases hadj with he | he
    · exact Or.inl (List.mem_filter.mpr ⟨he, by
        simp only [Bool.and_eq_true]
        exact ⟨(contains_iff_mem _ _).mpr hu, (contains_iff_mem _ _).mpr hwc⟩⟩)
    · exact Or.inr (List.mem_filter.mpr ⟨he, by
        simp only [Bool.and_eq_true]
        exact ⟨(contains_iff_mem _ _).mpr hwc, (contains_iff_mem _ _).mpr hu⟩⟩)

/-- Node identifiers of an induced subgraph. -/
theorem mem_subgraph_ids {G : PGraph} {s : List Str} {x : Str} :
    x ∈ (subgraphOf G s).ids ↔ x ∈ G.ids ∧ x ∈ s := by
  unfold subgraphOf PGraph.ids
  constructor
  · intro hx
    obtain ⟨n, hn, hid⟩ := List.mem_map.mp hx
    obtain ⟨hnG, hcont⟩ := List.mem_filter.mp hn
    refine ⟨List.mem_map.mpr ⟨n, hnG, hid⟩, ?_⟩
    rw [← hid]
    exact (contains_iff_mem _ _).mp hcont
  · rintro ⟨hxG, hxs⟩
    obtain ⟨n, hn, hid⟩ := List.mem_map.mp hxG
    refine List.mem_map.mpr ⟨n, List.mem_filter.mpr ⟨hn, ?_⟩, hid⟩
    rw [hid]
    exact (contains_iff_mem _ _).mpr hxs

/-- The largest component is the component of one of the graph's nodes. -/
theorem largestComp_spec {G : PGraph} (hne : G.ids ≠ []) :
    ∃ s ∈ G.ids, largestComp G = compOf G.ids G.edges s := by
  have h2 : largestComp G ∈ componentsList G := maxByLen_mem (componentsList_ne_nil hne)
  exact mem_componentsAux h2

/-- The largest component's subgraph is non-empty and connected: its fueled
distance search succeeds between any two of its nodes. -/
theorem largestSub_conn {G : PGraph} (hWF : ∀ e ∈ G.edges, e.1 ∈ G.ids ∧ e.2 ∈ G.ids)
    (hne : G.ids ≠ []) :
    (largestSub G).ids ≠ []
      ∧ ∀ u ∈ (largestSub G).ids, ∀ v ∈ (largestSub G).ids,
          ∃ d, distF (largestSub G).edges (largestSub G).ids.length u v = some d := by
  obtain ⟨s, hsV, hcomp⟩ := largestComp_spec hne
  have hsub : largestSub G = subgraphOf G (compOf G.ids G.edges s) := by
    unfold largestSub
    rw [hcomp]
  have hsH : s ∈ (largestSub G).ids := by
    rw [hsub]
    exact mem_subgraph_ids.mpr ⟨hsV, seed_mem_compOf hsV⟩
  have hEsub : ∀ e ∈ (largestSub G).edges, e.1 ∈ (largestSub G).ids ∧ e.2 ∈ (largestSub G).ids := by
    intro e he
    rw [hsub] at he ⊢
    obtain ⟨heE, hcont⟩ := List.mem_filter.mp he
    simp only [Bool.and_eq_true] at hcont
    exact ⟨mem_subgraph_ids.mpr ⟨(hWF e heE).1, (contains_iff_mem _ _).mp hcont.1⟩,
      mem_subgraph_ids.mpr ⟨(hWF e heE).2, (contains_iff_mem _ _).mp hcont.2⟩⟩
  refine ⟨List.ne_nil_of_mem hsH, ?_⟩
  intro u hu v hv
  have huc : u ∈ compOf G.ids G.edges s := (mem_subgraph_ids.mp (hsub ▸ hu)).2
  have hvc : v ∈ compOf G.ids G.edges s := (mem_subgraph_ids.mp (hsub ▸ hv)).2
  obtain ⟨l, hl⟩ := compOf_reach huc hvc
  have hl' : IsWalkL (largestSub G).edges u l v := by
    rw [hsub]
    exact walk_in_subE hWF hsV huc hl
  have hd : distLeB (largestSub G).edges (largestSub G).ids.length u v = true :=
    reach_distLeB_card hEsub hu ⟨l, hl'⟩
  obtain ⟨d, hd', _⟩ := distF_isSome (Nat.le_refl _) hd
  exact ⟨d, hd'⟩

/-! ## Eccentricity, diameter, periphery -/

/-- Every element bounds into the running maximum. -/
theorem le_foldr_max {l : List Nat} {x : Nat} (hx : x ∈ l) : x ≤ l.foldr Nat.max 0 := by
  induction l with
  | nil => cases hx
  | cons y l ih =>
    rw [List.foldr_cons]
    rcases List.mem_cons.mp hx with rfl | hx'
    · exact Nat.le_max_left _ _
    · exact Nat.le_trans (ih hx') (Nat.le_max_right _ _)

/-- The maximum of a non-empty list of naturals is attained. -/
theorem foldr_max_mem : ∀ {l : List Nat}, l ≠ [] → l.foldr Nat.max 0 ∈ l := by
  intro l
  induction l with
  | nil => intro h; exact absurd rfl h
  | cons x l ih =>
    intro _
    cases l with
    | nil => simp
    | cons y l2 =>
      rw [List.foldr_cons]
      rcases Nat.le_total ((y :: l2).foldr Nat.max 0) x with h1 | h1
      · have hm : x.max ((y :: l2).foldr Nat.max 0) = x := Nat.max_eq_left h1
        rw [hm]
        exact List.mem_cons_self _ _
      · have hm : x.max ((y :: l2).foldr Nat.max 0) = (y :: l2).foldr Nat.max 0 :=
          Nat.max_eq_right h1
        rw [hm]
        exact List.mem_cons_of_mem _ (ih (List.cons_ne_nil _ _))

/-- The eccentricity of `v` is attained at some node. -/
theorem ecc_attained {V : List Str} {E : List (Str × Str)} {v : Str} (hne : V ≠ []) :
    ∃ u ∈ V, (distF E V.length v u).getD 0 = eccOf V E v := by
  unfold eccOf
  have hmapne : V.map (fun u => (distF E V.length v u).getD 0) ≠ [] := by
    simpa using hne
  have hmem := foldr_max_mem hmapne
  obtain ⟨u, hu, heq⟩ := List.mem_map.mp hmem
  exact ⟨u, hu, heq⟩

/-- The diameter is the eccentricity of some node. -/
theorem diam_attained {V : List Str} {E : List (Str × Str)} (hne : V ≠ []) :
    ∃ v ∈ V, eccOf V E v = diamOf V E := by
  unfold diamOf
  have hmapne : V.map (fun v => eccOf V E v) ≠ [] := by simpa using hne
  have hmem := foldr_max_mem hmapne
  obtain ⟨v, hv, heq⟩ := List.mem_map.mp hmem
  exact ⟨v, hv, heq⟩

/-- The periphery of a non-empty graph is non-empty, and its first node has
eccentricity equal to the diameter. -/
theorem periph_head {V : List Str} {E : List (Str × Str)} (hne : V ≠ []) :
    ∃ p0, (periphOf V E).head? = some p0 ∧ p0 ∈ V ∧ eccOf V E p0 = diamOf V E := by
  obtain ⟨v, hv, hveq⟩ := diam_attained hne
  have hmem : v ∈ periphOf V E :=
    List.mem_filter.mpr ⟨hv, by simpa using hveq⟩
  have hpne : periphOf V E ≠ [] := List.ne_nil_of_mem hmem
  obtain ⟨p0, t, hpt⟩ := List.exists_cons_of_ne_nil hpne
  have hp0 : p0 ∈ periphOf V E := by
    rw [hpt]
    exact List.mem_cons_self _ _
  obtain ⟨hp0V, hp0eq⟩ := List.mem_filter.mp hp0
  exact ⟨p0, by rw [hpt]; rfl, hp0V, by simpa using hp0eq⟩

/-- C3: on every loaded graph (closed edge list) with a non-empty node set,
`solve_problem2_q5` finds a node at breadth-first distance from the first
periphery node equal to the diameter — the defensive
`No node found at distance = diameter` branch is unreachable — and the
shortest path it computes has hop count exactly the diameter of the largest
component. -/
theorem C3_q5_diameter_path (G : PGraph)
    (hWF : ∀ e ∈ G.edges, e.1 ∈ G.ids ∧ e.2 ∈ G.ids) (hne : G.ids ≠ []) :
    q5candidates G ≠ []
      ∧ (q5pathNodes G).length = diamOf (largestSub G).ids (largestSub G).edges + 1
      ∧ (solve_problem2_q5 G).2 ≠ Q5Out.noCandidate := by
  obtain ⟨hHne, hconn⟩ := largestSub_conn hWF hne
  obtain ⟨p0, hp0head, hp0V, hp0ecc⟩ :=
    @periph_head (largestSub G).ids (largestSub G).edges hHne
  obtain ⟨u, huV, hgetD⟩ := @ecc_attained (largestSub G).ids (largestSub G).edges p0 hHne
  obtain ⟨d, hd⟩ := hconn p0 hp0V u huV
  have hdiam : distF (largestSub G).edges (largestSub G).ids.length p0 u =
      some (diamOf (largestSub G).ids (largestSub G).edges) := by
    rw [hd]
    rw [hd] at hgetD
    simp only [Option.getD_some] at hgetD
    rw [hgetD, hp0ecc]
  have hcand : q5candidates G =
      (largestSub G).ids.filter
        (fun n => distF (largestSub G).edges (largestSub G).ids.length p0 n
          == some (diamOf (largestSub G).ids (largestSub G).edges)) := by
    unfold q5candidates
    rw [hp0head]
  have humem : u ∈ q5candidates G := by
    rw [hcand]
    exact List.mem_filter.mpr ⟨huV, by simpa using hdiam⟩
  have hcne : q5candidates G ≠ [] := List.ne_nil_of_mem humem
  obtain ⟨p1, t, hp1t⟩ := List.exists_cons_of_ne_nil hcne
  have hp1mem : p1 ∈ q5candidates G := by
    rw [hp1t]
    exact List.mem_cons_self _ _
  have hp1dist : distF (largestSub G).edges (largestSub G).ids.length p0 p1 =
      some (diamOf (largestSub G).ids (largestSub G).edges) := by
    rw [hcand] at hp1mem
    have := (List.mem_filter.mp hp1mem).2
    simpa using this
  have hpath : q5pathNodes G =
      spWalk (largestSub G).ids (largestSub G).edges
        (diamOf (largestSub G).ids (largestSub G).edges) p0 p1 := by
    unfold q5pathNodes
    rw [hp0head, hp1t]
    rfl
  refine ⟨hcne, ?_, ?_⟩
  · rw [hpath]
    exact spWalk_length hp1dist
  · show (if (q5candidates G).isEmpty then Q5Out.noCandidate else _) ≠ Q5Out.noCandidate
    have hemp : (q5candidates G).isEmpty = false := by
      rw [hp1t]
      rfl
    rw [hemp]
    simp only [Bool.false_eq_true, if_false]
    cases hmm : (q5pathNodes G).mapM (getCity G) with
    | none => simp
    | some cities => simp

/-- Witness for C3 on a concrete loaded graph. -/
theorem C3_witness :
    ((∀ e ∈ (build_graph ["A|1|CityA".toList, "B|2|CityB".toList, "C|3|CityC".toList]
            ["1 2".toList, "2 3".toList]).edges,
        e.1 ∈ (build_graph ["A|1|CityA".toList, "B|2|CityB".toList, "C|3|CityC".toList]
            ["1 2".toList, "2 3".toList]).ids
          ∧ e.2 ∈ (build_graph ["A|1|CityA".toList, "B|2|CityB".toList, "C|3|CityC".toList]
              ["1 2".toList, "2 3".toList]).ids)
      ∧ (build_graph ["A|1|CityA".toList, "B|2|CityB".toList, "C|3|CityC".toList]
            ["1 2".toList, "2 3".toList]).ids ≠ [])
      ∧ q5candidates (build_graph ["A|1|CityA".toList, "B|2|CityB".toList, "C|3|CityC".toList]
          ["1 2".toList, "2 3".toList]) ≠ [] :=
  ⟨⟨by decide, by decide⟩,
    (C3_q5_diameter_path
        (build_graph ["A|1|CityA".toList, "B|2|CityB".toList, "C|3|CityC".toList]
          ["1 2".toList, "2 3".toList])
        (by decide) (by decide)).1⟩

/-! ## The construction of the Cayley tree: invariant of the growth loop -/

/-- Membership in a step-one `range'`. -/
theorem mem_range1 {s n m : Nat} : m ∈ List.range' s n ↔ s ≤ m ∧ m < s + n := by
  rw [List.mem_range']
  constructor
  · rintro ⟨i, hi, rfl⟩
    omega
  · intro ⟨h1, h2⟩
    exact ⟨m - s, by omega, by omega⟩

/-- With ids `0 .. next-1`, looking a present id up succeeds. -/
theorem find_id_of_ids {ns : List (Nat × Nat)} {next i : Nat}
    (hids : ns.map Prod.fst = List.range next) (hi : i < next) :
    ∃ p, ns.find? (fun p => p.1 == i) = some p ∧ p.1 = i := by
  have hmem : i ∈ ns.map Prod.fst := by
    rw [hids, List.mem_range]
    exact hi
  obtain ⟨p, hp, hpi⟩ := List.mem_map.mp hmem
  have hsome : (ns.find? (fun p => p.1 == i)).isSome :=
    List.find?_isSome.mpr ⟨p, hp, by simpa using hpi⟩
  obtain ⟨q, hq⟩ := Option.isSome_iff_exists.mp hsome
  exact ⟨q, hq, by simpa using List.find?_some hq⟩

/-- Appending new nodes does not change the level of a present node. -/
theorem levelOf_append {ns extra : List (Nat × Nat)} {next i : Nat}
    (hids : ns.map Prod.fst = List.range next) (hi : i < next) :
    levelOf (ns ++ extra) i = levelOf ns i := by
  obtain ⟨p, hp, _⟩ := find_id_of_ids hids hi
  unfold levelOf
  rw [List.find?_append, hp]
  rfl

/-- The level of a freshly appended node is the level it was created with. -/
theorem levelOf_new {ns extra : List (Nat × Nat)} {next m d i : Nat}
    (hids : ns.map Prod.fst = List.range next)
    (hextra_ids : extra.map Prod.fst = List.range' next m)
    (hextra_lv : ∀ p ∈ extra, p.2 = d)
    (hge : next ≤ i) (hlt : i < next + m) :
    levelOf (ns ++ extra) i = d := by
  have hnone : ns.find? (fun p => p.1 == i) = none := by
    rw [List.find?_eq_none]
    intro p hp
    have hmem : p.1 ∈ List.range next := by
      rw [← hids]
      exact List.mem_map_of_mem _ hp
    rw [List.mem_range] at hmem
    simp only [beq_iff_eq]
    omega
  have hmem : i ∈ extra.map Prod.fst := by
    rw [hextra_ids, mem_range1]
    exact ⟨hge, hlt⟩
  obtain ⟨p, hp, hpi⟩ := List.mem_map.mp hmem
  unfold levelOf
  rw [List.find?_append, hnone, Option.none_or]
  cases hq : extra.find? (fun p => p.1 == i) with
  | none =>
    have := List.find?_eq_none.mp hq p hp
    simp only [beq_iff_eq] at this
    exact absurd hpi this
  | some q =>
    exact hextra_lv q (List.mem_of_find?_eq_some hq)

/-- Output characterization of one pass of `expandLevel` over the frontier:
the graph is extended by fresh consecutive nodes at level `d`, one new edge
per new node rooted at a frontier node, with every frontier node receiving
its prescribed number of children. -/
theorem expandLevel_spec {k d : Nat} :
    ∀ {cur : List Nat} {G : NGraph} {next : Nat},
      G.nodes.map Prod.fst = List.range next →
      (∀ i ∈ cur, i < next) →
      cur.Nodup →
      ∃ newNodes newEdges,
        (expandLevel k d G cur next).1.nodes = G.nodes ++ newNodes
        ∧ (expandLevel k d G cur next).1.edges = G.edges ++ newEdges
        ∧ next ≤ (expandLevel k d G cur next).2.2
        ∧ newNodes.map Prod.fst = List.range' next ((expandLevel k d G cur next).2.2 - next)
        ∧ (∀ p ∈ newNodes, p.2 = d)
        ∧ newEdges.map Prod.snd = List.range' next ((expandLevel k d G cur next).2.2 - next)
        ∧ (∀ e ∈ newEdges, e.1 ∈ cur ∧ next ≤ e.2)
        ∧ (expandLevel k d G cur next).2.1
            = List.range' next ((expandLevel k d G cur next).2.2 - next)
        ∧ (∀ i ∈ cur, (newEdges.filter (fun e => e.1 == i)).length
            = (if levelOf G.nodes i = 0 then k else k - 1))
        ∧ (∀ i, i ∉ cur → (newEdges.filter (fun e => e.1 == i)).length = 0) := by
  intro cur
  induction cur with
  | nil =>
    intro G next hids _ _
    refine ⟨[], [], ?_, ?_, ?_, ?_, ?_, ?_, ?_, ?_, ?_, ?_⟩
    · show G.nodes = G.nodes ++ []
      rw [List.append_nil]
    · show G.edges = G.edges ++ []
      rw [List.append_nil]
    · exact Nat.le_refl next
    · show ([] : List (Nat × Nat)).map Prod.fst = List.range' next (next - next)
      simp
    · intro p hp; cases hp
    · show ([] : List (Nat × Nat)).map Prod.snd = List.range' next (next - next)
      simp
    · intro e he; cases he
    · show ([] : List Nat) = List.range' next (next - next)
      simp
    · intro i hi; cases hi
    · intro i _
      rfl
  | cons node rest ih =>
    intro G next hids hlt hnd
    have hnodelt : node < next := hlt node (List.mem_cons_self _ _)
    have hrestlt : ∀ i ∈ rest, i < next := fun i hi => hlt i (List.mem_cons_of_mem _ hi)
    have hnodenotin : node ∉ rest := (List.nodup_cons.mp hnd).1
    have hrestnd : rest.Nodup := (List.nodup_cons.mp hnd).2
    set cnt := (if levelOf G.nodes node == 0 then k else k - 1) with hcnt
    set batchN := (List.range cnt).map (fun j => (next + j, d)) with hbatchN
    set batchE := (List.range cnt).map (fun j => (node, next + j)) with hbatchE
    set kids := (List.range cnt).map (fun j => next + j) with hkids
    set G1 : NGraph := ⟨G.nodes ++ batchN, G.edges ++ batchE⟩ with hG1
    have hkids_eq : kids = List.range' next cnt := by
      rw [hkids, List.range'_eq_map_range]
    have hG1ids : G1.nodes.map Prod.fst = List.range (next + cnt) := by
      show (G.nodes ++ batchN).map Prod.fst = _
      rw [List.map_append, hids, hbatchN, List.map_map]
      have hbn : (Prod.fst ∘ fun j => ((next + j : Nat), d)) = fun j => next + j := rfl
      rw [hbn, ← hkids, hkids_eq]
      rw [List.range_eq_range', List.range_eq_range']
      have := List.range'_append_1 0 next cnt
      rw [Nat.zero_add] at this
      rw [this]
      congr 1
      omega
    have hrestlt1 : ∀ i ∈ rest, i < next + cnt := fun i hi => by
      have := hrestlt i hi
      omega
    obtain ⟨nn2, ne2, h1, h2, h3, h4, h5, h6, h7, h8, h9, h10⟩ :=
      ih hG1ids hrestlt1 hrestnd
    have hunfold : expandLevel k d G (node :: rest) next =
        ((expandLevel k d G1 rest (next + cnt)).1,
         kids ++ (expandLevel k d G1 rest (next + cnt)).2.1,
         (expandLevel k d G1 rest (next + cnt)).2.2) := by
      rw [expandLevel]
      rfl
    rw [hunfold]
    dsimp only
    have hle2 : next + cnt ≤ (expandLevel k d G1 rest (next + cnt)).2.2 := h3
    refine ⟨batchN ++ nn2, batchE ++ ne2, ?_, ?_, by omega, ?_, ?_, ?_, ?_, ?_, ?_, ?_⟩
    · rw [h1]
      show G1.nodes ++ nn2 = _
      rw [hG1]
      exact (List.append_assoc _ _ _)
    · rw [h2]
      show G1.edges ++ ne2 = _
      rw [hG1]
      exact (List.append_assoc _ _ _)
    · rw [List.map_append, hbatchN, List.map_map]
      have hbn : (Prod.fst ∘ fun j => ((next + j : Nat), d)) = fun j => next + j := rfl
      rw [hbn, ← hkids, hkids_eq, h4]
      have := List.range'_append_1 next cnt ((expandLevel k d G1 rest (next + cnt)).2.2 - (next + cnt))
      rw [this]
      congr 1
      omega
    · intro p hp
      rcases List.mem_append.mp hp with h | h
      · rw [hbatchN] at h
        obtain ⟨j, _, rfl⟩ := List.mem_map.mp h
        rfl
      · exact h5 p h
    · rw [List.map_append, hbatchE, List.map_map]
      have hbe : (Prod.snd ∘ fun j => (node, (next + j : Nat))) = fun j => next + j := rfl
      rw [hbe, ← hkids, hkids_eq, h6]
      have := List.range'_append_1 next cnt ((expandLevel k d G1 rest (next + cnt)).2.2 - (next + cnt))
      rw [this]
      congr 1
      omega
    · intro e he
      rcases List.mem_append.mp he with h | h
      · rw [hbatchE] at h
        obtain ⟨j, _, rfl⟩ := List.mem_map.mp h
        exact ⟨List.mem_cons_self _ _, by omega⟩
      · obtain ⟨hin, hge⟩ := h7 e h
        exact ⟨List.mem_cons_of_mem _ hin, by omega⟩
    · rw [h8, hkids_eq]
      have := List.range'_append_1 next cnt ((expandLevel k d G1 rest (next + cnt)).2.2 - (next + cnt))
      rw [this]
      congr 1
      omega
    · intro i hi
      rw [List.filter_append, List.length_append]
      rcases List.mem_cons.mp hi with rfl | hirest
      · have hb : batchE.filter (fun e => e.1 == i) = batchE := by
          rw [List.filter_eq_self]
          intro e he
          rw [hbatchE] at he
          obtain ⟨j, _, rfl⟩ := List.mem_map.mp he
          simp
        have hn : (ne2.filter (fun e => e.1 == i)).length = 0 := h10 i hnodenotin
        rw [hb, hn, hbatchE, List.length_map, List.length_range, Nat.add_zero, hcnt]
        by_cases h0 : levelOf G.nodes i = 0
        · rw [if_pos h0, if_pos (by simpa using h0)]
        · rw [if_neg h0, if_neg (by simpa using h0)]
      · have hb : batchE.filter (fun e => e.1 == i) = [] := by
          rw [List.filter_eq_nil_iff]
          intro e he
          rw [hbatchE] at he
          obtain ⟨j, _, rfl⟩ := List.mem_map.mp he
          simp only [beq_iff_eq]
          intro hcontra
          exact hnodenotin (hcontra ▸ hirest)
        have hn := h9 i hirest
        rw [hb]
        have hlvst : levelOf G1.nodes i = levelOf G.nodes i := by
          rw [hG1]
          exact levelOf_append hids (hrestlt i hirest)
        rw [hlvst] at hn
        rw [hn]
        simp
    · intro i hi
      have hinode : i ≠ node := fun h => hi (h ▸ List.mem_cons_self _ _)
      have hirest : i ∉ rest := fun h => hi (List.mem_cons_of_mem _ h)
      rw [List.filter_append, List.length_append]
      have hb : batchE.filter (fun e => e.1 == i) = [] := by
        rw [List.filter_eq_nil_iff]
        intro e he
        rw [hbatchE] at he
        obtain ⟨j, _, rfl⟩ := List.mem_map.mp he
        simp only [beq_iff_eq]
        exact fun hc => hinode hc.symm
      rw [hb, h10 i hirest]
      rfl

/-- Gluing two consecutive step-one ranges. -/
theorem range'_glue (s m1 m2 : Nat) :
    List.range' s m1 ++ List.range' (s + m1) m2 = List.range' s (m2 + m1) :=
  List.range'_append_1 s m1 m2

/-- The invariant holds at the start of the growth loop. -/
theorem growInv_base (k : Nat) : GrowInv k 1 ⟨[(0, 0)], []⟩ [0] 1 := by
  refine ⟨Nat.le_refl 1, Nat.le_refl 1, rfl, rfl, ?_, ?_, ?_, List.nodup_singleton 0, rfl,
    ?_, ?_, ?_, ?_⟩
  · intro i h1 h2
    omega
  · intro i hi
    interval_cases i
    exact Nat.le_refl 0
  · intro i
    constructor
    · intro hi
      rcases List.mem_singleton.mp hi with rfl
      exact ⟨Nat.one_pos, rfl⟩
    · rintro ⟨h1, h2⟩
      interval_cases i
      exact List.mem_singleton.mpr rfl
  · intro e he
    cases he
  · intro e he
    cases he
  · intro i h1 h2
    omega
  · intro i h1 h2
    rfl

/-- One pass of the loop preserves the invariant, stepping the level. -/
theorem growInv_step {k d : Nat} {G : NGraph} {cur : List Nat} {next : Nat}
    (inv : GrowInv k d G cur next) :
    GrowInv k (d + 1) (expandLevel k d G cur next).1 (expandLevel k d G cur next).2.1
      (expandLevel k d G cur next).2.2 := by
  obtain ⟨hd, hnext, ids, lv0, lv_pos, lv_le, cur_mem, cur_nodup, child_ids, edge_lt,
    edge_lv, cc_done, cc_frontier⟩ := inv
  have hcurlt : ∀ i ∈ cur, i < next := fun i hi => ((cur_mem i).mp hi).1
  obtain ⟨nn, ne, h1, h2, h3, h4, h5, h6, h7, h8, h9, h10⟩ :=
    expandLevel_spec ids hcurlt cur_nodup
  have hlv_old : ∀ i, i < next →
      levelOf (expandLevel k d G cur next).1.nodes i = levelOf G.nodes i := by
    intro i hi
    rw [h1]
    exact levelOf_append ids hi
  have hlv_new : ∀ i, next ≤ i → i < (expandLevel k d G cur next).2.2 →
      levelOf (expandLevel k d G cur next).1.nodes i = d := by
    intro i hge hlt
    rw [h1]
    exact levelOf_new ids h4 h5 hge (by omega)
  have hedge2lt : ∀ e ∈ G.edges, e.2 < next := by
    intro e he
    have hm : e.2 ∈ G.edges.map Prod.snd := List.mem_map_of_mem _ he
    rw [child_ids, mem_range1] at hm
    omega
  have hlvzero : ∀ i, i < next → (levelOf G.nodes i = 0 ↔ i = 0) := by
    intro i hi
    constructor
    · intro h0
      by_contra hne
      have := lv_pos i (by omega) hi
      omega
    · rintro rfl
      exact lv0
  have hcc : ∀ i, childCount (expandLevel k d G cur next).1 i
      = childCount G i + (ne.filter (fun e => e.1 == i)).length := by
    intro i
    unfold childCount
    rw [h2, List.filter_append, List.length_append]
  refine ⟨by omega, by omega, ?_, ?_, ?_, ?_, ?_, ?_, ?_, ?_, ?_, ?_, ?_⟩
  · rw [h1, List.map_append, ids, h4]
    rw [List.range_eq_range', List.range_eq_range']
    have e1 : List.range' next ((expandLevel k d G cur next).2.2 - next)
        = List.range' (0 + next) ((expandLevel k d G cur next).2.2 - next) := by
      rw [Nat.zero_add]
    rw [e1, range'_glue]
    congr 1
    omega
  · rw [hlv_old 0 (by omega)]
    exact lv0
  · intro i h1i h2i
    by_cases hi : i < next
    · rw [hlv_old i hi]
      exact lv_pos i h1i hi
    · rw [hlv_new i (by omega) h2i]
      omega
  · intro i hi
    simp only [Nat.add_sub_cancel]
    by_cases hlt : i < next
    · rw [hlv_old i hlt]
      have := lv_le i hlt
      omega
    · rw [hlv_new i (by omega) hi]
  · intro i
    rw [h8, mem_range1]
    simp only [Nat.add_sub_cancel]
    constructor
    · rintro ⟨hge, hlt⟩
      have hlt' : i < (expandLevel k d G cur next).2.2 := by omega
      exact ⟨hlt', hlv_new i hge hlt'⟩
    · rintro ⟨hlt, hlv⟩
      by_cases hge : next ≤ i
      · exact ⟨hge, by omega⟩
      · exfalso
        rw [hlv_old i (by omega)] at hlv
        have := lv_le i (by omega)
        omega
  · rw [h8]
    exact List.nodup_range' ..
  · rw [h2, List.map_append, child_ids, h6]
    have e1 : List.range' next ((expandLevel k d G cur next).2.2 - next)
        = List.range' (1 + (next - 1)) ((expandLevel k d G cur next).2.2 - next) := by
      congr 1
      omega
    rw [e1, range'_glue]
    congr 1
    omega
  · intro e he
    rw [h2] at he
    rcases List.mem_append.mp he with hold | hnew
    · exact edge_lt e hold
    · obtain ⟨hc, hge⟩ := h7 e hnew
      have := hcurlt e.1 hc
      omega
  · intro e he
    rw [h2] at he
    rcases List.mem_append.mp he with hold | hnew
    · have he1 : e.1 < next := by
        have := edge_lt e hold
        have := hedge2lt e hold
        omega
      rw [hlv_old e.1 he1, hlv_old e.2 (hedge2lt e hold)]
      exact edge_lv e hold
    · obtain ⟨hc, hge⟩ := h7 e hnew
      have he2m : e.2 ∈ ne.map Prod.snd := List.mem_map_of_mem _ hnew
      rw [h6, mem_range1] at he2m
      have hlv1 : levelOf (expandLevel k d G cur next).1.nodes e.1 = d - 1 := by
        rw [hlv_old e.1 (hcurlt e.1 hc)]
        exact ((cur_mem e.1).mp hc).2
      have hlv2 : levelOf (expandLevel k d G cur next).1.nodes e.2 = d := by
        exact hlv_new e.2 hge (by omega)
      rw [hlv1, hlv2]
      omega
  · intro i hilt hlvi
    simp only [Nat.add_sub_cancel] at hlvi
    rw [hcc]
    by_cases hi : i < next
    · rw [hlv_old i hi] at hlvi
      by_cases hfr : levelOf G.nodes i = d - 1
      · have hicur : i ∈ cur := (cur_mem i).mpr ⟨hi, hfr⟩
        rw [cc_frontier i hi hfr, h9 i hicur, Nat.zero_add]
        by_cases h0 : i = 0
        · rw [if_pos h0, if_pos ((hlvzero i hi).mpr h0)]
        · rw [if_neg h0, if_neg (fun hc => h0 ((hlvzero i hi).mp hc))]
      · have hlvlt : levelOf G.nodes i < d - 1 := by
          have := lv_le i hi
          omega
        have hicur : i ∉ cur := fun hc => hfr ((cur_mem i).mp hc).2
        rw [cc_done i hi hlvlt, h10 i hicur, Nat.add_zero]
    · exfalso
      rw [hlv_new i (by omega) hilt] at hlvi
      omega
  · intro i hilt hlvi
    simp only [Nat.add_sub_cancel] at hlvi
    have hi : ¬ i < next := by
      intro hi
      rw [hlv_old i hi] at hlvi
      have := lv_le i hi
      omega
    rw [hcc]
    have hold0 : childCount G i = 0 := by
      unfold childCount
      rw [List.length_eq_zero]
      rw [List.filter_eq_nil_iff]
      intro e he
      have h2lt := hedge2lt e he
      have h1lt := edge_lt e he
      simp only [beq_iff_eq]
      omega
    have hnew0 : (ne.filter (fun e => e.1 == i)).length = 0 := by
      rw [List.length_eq_zero, List.filter_eq_nil_iff]
      intro e he
      have := hcurlt e.1 (h7 e he).1
      simp only [beq_iff_eq]
      omega
    rw [hold0, hnew0]

/-- The invariant is preserved through the whole growth loop. -/
theorem growLoop_inv {k : Nat} :
    ∀ (fuel : Nat) {d : Nat} {G : NGraph} {cur : List Nat} {next : Nat},
      GrowInv k d G cur next →
      ∃ cur' next', GrowInv k (d + fuel) (growLoop k fuel d G cur next) cur' next' := by
  intro fuel
  induction fuel with
  | zero =>
    intro d G cur next inv
    exact ⟨cur, next, inv⟩
  | succ fuel ih =>
    intro d G cur next inv
    obtain ⟨cur', next', hinv⟩ := ih (growInv_step inv)
    refine ⟨cur', next', ?_⟩
    have harith : d + 1 + fuel = d + (fuel + 1) := by omega
    rw [← harith]
    exact hinv

/-- The invariant holds of the generated tree at level `P + 1`, with the
node count as the fresh-id counter. -/
theorem generate_inv (k P : Nat) :
    ∃ cur, GrowInv k (P + 1) (generate_cayley_tree k P) cur
      (numNodesN (generate_cayley_tree k P)) := by
  obtain ⟨cur, next, hinv⟩ := growLoop_inv P (growInv_base k)
  have h1P : 1 + P = P + 1 := Nat.add_comm 1 P
  rw [h1P] at hinv
  have hlen : numNodesN (generate_cayley_tree k P) = next := by
    have h := congrArg List.length hinv.ids
    rw [List.length_map, List.length_range] at h
    exact h
  rw [hlen]
  exact ⟨cur, hinv⟩

/-- The generated tree always contains at least the root node. -/
theorem numNodesN_pos (k P : Nat) : 0 < numNodesN (generate_cayley_tree k P) := by
  obtain ⟨cur, hinv⟩ := generate_inv k P
  have h := hinv.hnext
  omega

/-- Every stored edge runs upward to a child index below `next`. -/
theorem inv_edge_lt {k d : Nat} {G : NGraph} {cur : List Nat} {next : Nat}
    (inv : GrowInv k d G cur next) : ∀ e ∈ G.edges, e.1 < e.2 ∧ e.2 < next := by
  intro e he
  refine ⟨inv.edge_lt e he, ?_⟩
  have hm : e.2 ∈ G.edges.map Prod.snd := List.mem_map_of_mem _ he
  rw [inv.child_ids, mem_range1] at hm
  omega

/-- Every node other than the root has a stored parent edge into it. -/
theorem inv_parent {k d : Nat} {G : NGraph} {cur : List Nat} {next : Nat}
    (inv : GrowInv k d G cur next) {i : Nat} (h1 : 1 ≤ i) (h2 : i < next) :
    ∃ e ∈ G.edges, e.2 = i := by
  have hm : i ∈ G.edges.map Prod.snd := by
    rw [inv.child_ids, mem_range1]
    omega
  obtain ⟨e, he, hei⟩ := List.mem_map.mp hm
  exact ⟨e, he, hei⟩

/-- Each node is the child of at most one stored edge. -/
theorem inv_parent_uniq {k d : Nat} {G : NGraph} {cur : List Nat} {next : Nat}
    (inv : GrowInv k d G cur next) {e1 e2 : Nat × Nat}
    (h1 : e1 ∈ G.edges) (h2 : e2 ∈ G.edges) (h : e1.2 = e2.2) : e1 = e2 := by
  have hnd : (G.edges.map Prod.snd).Nodup := by
    rw [inv.child_ids]
    exact List.nodup_range' ..
  exact List.inj_on_of_nodup_map hnd h1 h2 h

/-- Counting matches of `· == i` in a duplicate-free list of numbers. -/
theorem countP_beq_nodup : ∀ {l : List Nat}, l.Nodup → ∀ i : Nat,
    l.countP (fun x => x == i) = (if i ∈ l then 1 else 0) := by
  intro l
  induction l with
  | nil =>
    intro _ i
    simp
  | cons a l ih =>
    intro hnd i
    have hnd' := (List.nodup_cons.mp hnd).2
    have hna := (List.nodup_cons.mp hnd).1
    rw [List.countP_cons, ih hnd' i]
    by_cases hai : a = i
    · subst hai
      rw [if_neg hna, if_pos (List.mem_cons_self a l)]
      simp
    · by_cases hil : i ∈ l
      · rw [if_pos hil, if_pos (List.mem_cons_of_mem a hil)]
        simp [hai]
      · rw [if_neg hil,
          if_neg (fun hc => (List.mem_cons.mp hc).elim (fun h => hai h.symm) hil)]
        simp [hai]

/-- The number of stored edges into `i`: one for each non-root node present,
none otherwise. -/
theorem inv_parents_count {k d : Nat} {G : NGraph} {cur : List Nat} {next : Nat}
    (inv : GrowInv k d G cur next) (i : Nat) :
    (G.edges.filter (fun e => e.2 == i)).length
      = (if 1 ≤ i ∧ i < next then 1 else 0) := by
  have h1 : (G.edges.filter (fun e => e.2 == i)).length
      = (G.edges.map Prod.snd).countP (fun x => x == i) := by
    rw [List.countP_map, ← List.countP_eq_length_filter]
    rfl
  rw [h1, inv.child_ids, countP_beq_nodup (List.nodup_range' ..) i]
  by_cases h : 1 ≤ i ∧ i < next
  · rw [if_pos h, if_pos (by rw [mem_range1]; omega)]
  · rw [if_neg h, if_neg (by rw [mem_range1]; omega)]

/-- Splitting a filter over a pointwise-exclusive disjunction of tests. -/
theorem length_filter_or {α : Type} (l : List α) (p q : α → Bool)
    (h : ∀ x ∈ l, ¬(p x = true ∧ q x = true)) :
    (l.filter (fun x => p x || q x)).length
      = (l.filter p).length + (l.filter q).length := by
  induction l with
  | nil => rfl
  | cons a l ih =>
    have ha := h a (List.mem_cons_self a l)
    have hl : ∀ x ∈ l, ¬(p x = true ∧ q x = true) :=
      fun x hx => h x (List.mem_cons_of_mem a hx)
    rw [List.filter_cons, List.filter_cons, List.filter_cons]
    cases hp : p a with
    | true =>
      have hq : q a = false := by
        cases hq : q a with
        | true => exact absurd ⟨hp, hq⟩ ha
        | false => rfl
      simp only [hp, hq, Bool.true_or, if_true, Bool.false_eq_true, if_false,
        List.length_cons, ih hl]
      omega
    | false =>
      cases hq : q a with
      | true =>
        simp only [hp, hq, Bool.false_or, if_true, Bool.false_eq_true, if_false,
          List.length_cons, ih hl]
        omega
      | false =>
        simp only [hp, hq, Bool.false_or, Bool.false_eq_true, if_false, ih hl]

/-- Under the invariant the `networkx` degree of a node is its child count
plus one for its parent edge (the root has no parent edge). -/
theorem inv_deg {k d : Nat} {G : NGraph} {cur : List Nat} {next : Nat}
    (inv : GrowInv k d G cur next) (i : Nat) :
    degN G i = childCount G i + (if 1 ≤ i ∧ i < next then 1 else 0) := by
  have hself : (G.edges.filter (fun e => e.1 == i && e.2 == i)).length = 0 := by
    rw [List.length_eq_zero, List.filter_eq_nil_iff]
    intro e he
    have hlt := inv.edge_lt e he
    simp only [Bool.and_eq_true, beq_iff_eq]
    omega
  have hsplit : (G.edges.filter (fun e => e.1 == i || e.2 == i)).length
      = (G.edges.filter (fun e => e.1 == i)).length
        + (G.edges.filter (fun e => e.2 == i)).length := by
    refine length_filter_or G.edges (fun e => e.1 == i) (fun e => e.2 == i) ?_
    intro e he hc
    have hlt := inv.edge_lt e he
    obtain ⟨hc1, hc2⟩ := hc
    simp only [beq_iff_eq] at hc1 hc2
    omega
  unfold degN
  rw [hself, Nat.add_zero, hsplit, inv_parents_count inv i]
  rfl

/-- Adjacency in `toSG`: an edge stored in either orientation between two
distinct node indices. -/
theorem toSG_adj {G : NGraph} {a b : Fin (numNodesN G)} :
    (toSG G).Adj a b
      ↔ a ≠ b ∧ (((a : Nat), (b : Nat)) ∈ G.edges ∨ ((b : Nat), (a : Nat)) ∈ G.edges) :=
  SimpleGraph.fromRel_adj _ _ _

/-- Under the invariant, an adjacency whose left index is larger comes from
the stored parent edge of that larger index. -/
theorem toSG_adj_down {k d : Nat} {G : NGraph} {cur : List Nat} {next : Nat}
    (inv : GrowInv k d G cur next) {a b : Fin (numNodesN G)}
    (hadj : (toSG G).Adj a b) (hba : (b : Nat) < (a : Nat)) :
    ((b : Nat), (a : Nat)) ∈ G.edges := by
  rcases (toSG_adj.mp hadj).2 with h | h
  · have hlt : (a : Nat) < (b : Nat) := inv.edge_lt _ h
    omega
  · exact h

/-- Under the invariant every node index is joined to the root by a walk
whose length is exactly its `level` attribute. -/
theorem walk_to_root {k d : Nat} {G : NGraph} {cur : List Nat} {next : Nat}
    (inv : GrowInv k d G cur next) (r : Fin (numNodesN G)) (hr : (r : Nat) = 0) :
    ∀ n (i : Fin (numNodesN G)), (i : Nat) = n →
      ∃ w : (toSG G).Walk r i, w.length = levelOf G.nodes (i : Nat) := by
  intro n
  induction n using Nat.strong_induction_on with
  | _ n ih =>
    intro i hin
    by_cases h0 : (i : Nat) = 0
    · have hri : r = i := Fin.ext (by rw [hr, h0])
      subst hri
      refine ⟨SimpleGraph.Walk.nil, ?_⟩
      rw [SimpleGraph.Walk.length_nil, hr, inv.lv0]
    · have hilt : (i : Nat) < next := by
        have hlt := i.isLt
        have hN : numNodesN G = next := by
          have h := congrArg List.length inv.ids
          rw [List.length_map, List.length_range] at h
          exact h
        omega
      obtain ⟨e, he, he2⟩ := inv_parent inv (by omega) hilt
      obtain ⟨pa, ci⟩ := e
      have hci : ci = (i : Nat) := he2
      subst hci
      have he1lt : pa < (i : Nat) := inv.edge_lt _ he
      have he1N : pa < numNodesN G := by
        have hlt := i.isLt
        omega
      obtain ⟨w, hw⟩ := ih pa (by omega) ⟨pa, he1N⟩ rfl
      have hadj : (toSG G).Adj ⟨pa, he1N⟩ i := by
        rw [toSG_adj]
        constructor
        · intro hpe
          have h2 : pa = (i : Nat) := congrArg Fin.val hpe
          omega
        · exact Or.inl he
      refine ⟨w.concat hadj, ?_⟩
      rw [SimpleGraph.Walk.length_concat, hw]
      have hlv : levelOf G.nodes (i : Nat) = levelOf G.nodes pa + 1 := inv.edge_lv _ he
      rw [hlv]

/-- Under the invariant the generated graph is connected. -/
theorem toSG_connected_of_inv {k d : Nat} {G : NGraph} {cur : List Nat} {next : Nat}
    (inv : GrowInv k d G cur next) (r : Fin (numNodesN G)) (hr : (r : Nat) = 0) :
    (toSG G).Connected := by
  rw [SimpleGraph.connected_iff_exists_forall_reachable]
  refine ⟨r, fun w => ?_⟩
  obtain ⟨p, _⟩ := walk_to_root inv r hr (w : Nat) w rfl
  exact ⟨p⟩

/-- Adjacent indices carry `level` attributes differing by exactly one. -/
theorem adj_level {k d : Nat} {G : NGraph} {cur : List Nat} {next : Nat}
    (inv : GrowInv k d G cur next) {a b : Fin (numNodesN G)}
    (hadj : (toSG G).Adj a b) :
    levelOf G.nodes (b : Nat) = levelOf G.nodes (a : Nat) + 1
      ∨ levelOf G.nodes (a : Nat) = levelOf G.nodes (b : Nat) + 1 := by
  rcases (toSG_adj.mp hadj).2 with h | h
  · exact Or.inl (inv.edge_lv _ h)
  · exact Or.inr (inv.edge_lv _ h)

/-- Along any walk the `level` attribute changes by at most one per step. -/
theorem level_le_walk {k d : Nat} {G : NGraph} {cur : List Nat} {next : Nat}
    (inv : GrowInv k d G cur next) :
    ∀ {a b : Fin (numNodesN G)} (w : (toSG G).Walk a b),
      levelOf G.nodes (b : Nat) ≤ levelOf G.nodes (a : Nat) + w.length := by
  intro a b w
  induction w with
  | nil => simp
  | cons hadj p ih =>
    rcases adj_level inv hadj with h | h <;>
      · rw [SimpleGraph.Walk.length_cons]
        omega

/-- Under the invariant the graph distance from the root is the stored
`level` attribute. -/
theorem dist_eq_level {k d : Nat} {G : NGraph} {cur : List Nat} {next : Nat}
    (inv : GrowInv k d G cur next) (r : Fin (numNodesN G)) (hr : (r : Nat) = 0)
    (i : Fin (numNodesN G)) :
    (toSG G).dist r i = levelOf G.nodes (i : Nat) := by
  obtain ⟨w, hw⟩ := walk_to_root inv r hr (i : Nat) i rfl
  have hle : (toSG G).dist r i ≤ levelOf G.nodes (i : Nat) := by
    rw [← hw]
    exact SimpleGraph.dist_le w
  have hreach : (toSG G).Reachable r i := ⟨w⟩
  obtain ⟨p, hp⟩ := hreach.exists_walk_length_eq_dist
  have hge : levelOf G.nodes (i : Nat) ≤ (toSG G).dist r i := by
    have hb := level_le_walk inv p
    rw [hp, hr, inv.lv0] at hb
    omega
  omega

/-- No cycle can be based at its vertex of largest index: both cycle
neighbours of that vertex would be its unique stored parent, repeating an
edge. -/
theorem no_cycle_at_max {k d : Nat} {G : NGraph} {cur : List Nat} {next : Nat}
    (inv : GrowInv k d G cur next) {u : Fin (numNodesN G)}
    (c : (toSG G).Walk u u) (hc : c.IsCycle)
    (hmax : ∀ x ∈ c.support, (x : Nat) ≤ (u : Nat)) : False := by
  cases c with
  | nil => simpa using hc.three_le_length
  | @cons _ b _ hadj q =>
    have hqpath := (SimpleGraph.Walk.cons_isCycle_iff q hadj).mp hc
    have hbsup : b ∈ q.support := SimpleGraph.Walk.start_mem_support q
    have hble : (b : Nat) ≤ (u : Nat) := by
      refine hmax b ?_
      rw [SimpleGraph.Walk.support_cons]
      exact List.mem_cons_of_mem _ hbsup
    have hbne : (b : Nat) ≠ (u : Nat) := fun h => hadj.ne (Fin.ext h.symm)
    have hblt : (b : Nat) < (u : Nat) := by omega
    have hub : u ≠ b := hadj.ne
    obtain ⟨a, hadj2, q2, hq2⟩ :=
      SimpleGraph.Walk.exists_eq_cons_of_ne hub q.reverse
    have hasup : a ∈ q.support := by
      have h1 : a ∈ q.reverse.support := by
        rw [hq2, SimpleGraph.Walk.support_cons]
        exact List.mem_cons_of_mem _ (SimpleGraph.Walk.start_mem_support q2)
      rw [SimpleGraph.Walk.support_reverse, List.mem_reverse] at h1
      exact h1
    have hale : (a : Nat) ≤ (u : Nat) := by
      refine hmax a ?_
      rw [SimpleGraph.Walk.support_cons]
      exact List.mem_cons_of_mem _ hasup
    have hane : (a : Nat) ≠ (u : Nat) := fun h => hadj2.ne (Fin.ext h.symm)
    have halt : (a : Nat) < (u : Nat) := by omega
    have heb : ((b : Nat), (u : Nat)) ∈ G.edges := toSG_adj_down inv hadj hblt
    have hea : ((a : Nat), (u : Nat)) ∈ G.edges := toSG_adj_down inv hadj2 halt
    have hpair : ((b : Nat), (u : Nat)) = ((a : Nat), (u : Nat)) :=
      inv_parent_uniq inv heb hea rfl
    have hab : a = b := by
      have hv : (b : Nat) = (a : Nat) := congrArg Prod.fst hpair
      exact Fin.ext hv.symm
    subst hab
    have hmem : s(u, a) ∈ q.reverse.edges := by
      rw [hq2, SimpleGraph.Walk.edges_cons]
      exact List.mem_cons_self _ _
    rw [SimpleGraph.Walk.edges_reverse, List.mem_reverse] at hmem
    exact hqpath.2 hmem

/-- Under the invariant the generated graph is acyclic. -/
theorem toSG_acyclic_of_inv {k d : Nat} {G : NGraph} {cur : List Nat} {next : Nat}
    (inv : GrowInv k d G cur next) : (toSG G).IsAcyclic := by
  intro v c hc
  have hsne : c.support.map Fin.val ≠ [] := by
    intro h
    exact SimpleGraph.Walk.support_ne_nil c (List.map_eq_nil_iff.mp h)
  have hmem := foldr_max_mem hsne
  obtain ⟨u0, hu0mem, hu0⟩ := List.mem_map.mp hmem
  have hbound : ∀ x ∈ (c.rotate hu0mem).support, (x : Nat) ≤ (u0 : Nat) := by
    intro x hx
    rw [SimpleGraph.Walk.support_eq_cons] at hx
    rcases List.mem_cons.mp hx with rfl | hx
    · exact Nat.le_refl _
    · have hrot := SimpleGraph.Walk.support_rotate c hu0mem
      have hx' : x ∈ c.support.tail := hrot.mem_iff.mp hx
      have hxle : (x : Nat) ≤ (c.support.map Fin.val).foldr Nat.max 0 :=
        le_foldr_max (List.mem_map_of_mem _ (List.mem_of_mem_tail hx'))
      have hu0' : (u0 : Nat) = (c.support.map Fin.val).foldr Nat.max 0 := hu0
      rw [hu0']
      exact hxle
  exact no_cycle_at_max inv (c.rotate hu0mem) (hc.rotate hu0mem) hbound

/-- Under the invariant the generated graph is a tree. -/
theorem toSG_isTree_of_inv {k d : Nat} {G : NGraph} {cur : List Nat} {next : Nat}
    (inv : GrowInv k d G cur next) (r : Fin (numNodesN G)) (hr : (r : Nat) = 0) :
    (toSG G).IsTree :=
  ⟨toSG_connected_of_inv inv r hr, toSG_acyclic_of_inv inv⟩

/-- C1 (amended): `generate_cayley_tree(k, P)` builds a tree — connected and
acyclic as an undirected graph; the root has `k` children when `P ≥ 1` but
none when `P = 0` (the claim's unconditional "root has exactly k children"
fails at `P = 0`); the root's degree equals its child count; every non-root
node with at least one child has exactly `k - 1` children; every node's
`level` attribute equals its graph distance from the root; no node's level
exceeds `P`; and for `k = 3`, `P = 2` the node count is `10`, the root's
degree is `3 = k`, and every non-root node's degree is at most `3 = k`. -/
theorem C1_cayley_tree (k P : Nat) (_hk : 2 ≤ k) :
    (toSG (generate_cayley_tree k P)).IsTree
    ∧ childCount (generate_cayley_tree k P) 0 = (if P = 0 then 0 else k)
    ∧ degN (generate_cayley_tree k P) 0 = childCount (generate_cayley_tree k P) 0
    ∧ (∀ i, 1 ≤ i → i < numNodesN (generate_cayley_tree k P) →
        childCount (generate_cayley_tree k P) i ≠ 0 →
        childCount (generate_cayley_tree k P) i = k - 1)
    ∧ (∀ i : Fin (numNodesN (generate_cayley_tree k P)),
        (toSG (generate_cayley_tree k P)).dist ⟨0, numNodesN_pos k P⟩ i
          = levelOf (generate_cayley_tree k P).nodes (i : Nat))
    ∧ (∀ i, i < numNodesN (generate_cayley_tree k P) →
        levelOf (generate_cayley_tree k P).nodes i ≤ P)
    ∧ numNodesN (generate_cayley_tree 3 2) = 10
    ∧ degN (generate_cayley_tree 3 2) 0 = 3
    ∧ (∀ i, i < numNodesN (generate_cayley_tree 3 2) → 1 ≤ i →
        degN (generate_cayley_tree 3 2) i ≤ 3) := by
  obtain ⟨cur, hinv⟩ := generate_inv k P
  have hr0 : ((⟨0, numNodesN_pos k P⟩ :
      Fin (numNodesN (generate_cayley_tree k P))) : Nat) = 0 := rfl
  refine ⟨toSG_isTree_of_inv hinv _ hr0, ?_, ?_, ?_, ?_, ?_, by decide, by decide, by decide⟩
  · by_cases hP : P = 0
    · rw [if_pos hP]
      refine hinv.cc_frontier 0 ?_ ?_
      · have h := hinv.hnext
        omega
      · rw [hinv.lv0]
        omega
    · rw [if_neg hP]
      have h := hinv.cc_done 0 (by have h := hinv.hnext; omega) (by rw [hinv.lv0]; omega)
      rw [if_pos rfl] at h
      exact h
  · have h := inv_deg hinv 0
    rw [if_neg (by omega)] at h
    omega
  · intro i h1 h2 hcc
    by_cases hfr : levelOf (generate_cayley_tree k P).nodes i = P
    · exact absurd (hinv.cc_frontier i h2 (by rw [hfr]; omega)) hcc
    · have hle := hinv.lv_le i h2
      have h := hinv.cc_done i h2 (by omega)
      rw [if_neg (by omega)] at h
      exact h
  · intro i
    exact dist_eq_level hinv _ hr0 i
  · intro i hi
    have h := hinv.lv_le i hi
    omega

/-- C1, counterexample to the claim as stated: at `k = 2`, `P = 0` the
generated tree is the single root node, so the root has `0` children and
degree `0`, not `k = 2`. -/
theorem C1_counterexample :
    childCount (generate_cayley_tree 2 0) 0 ≠ 2
      ∧ degN (generate_cayley_tree 2 0) 0 ≠ 2
      ∧ childCount (generate_cayley_tree 2 0) 0 = 0
      ∧ numNodesN (generate_cayley_tree 2 0) = 1 := by decide

/-- C1, witness: the amended claim instantiated at `k = 3`, `P = 2` — the
generated graph really is a tree whose root has `3` children. -/
theorem C1_witness :
    (toSG (generate_cayley_tree 3 2)).IsTree
      ∧ childCount (generate_cayley_tree 3 2) 0 = 3 := by
  have h := C1_cayley_tree 3 2 (by decide)
  refine ⟨h.1, ?_⟩
  have h2 := h.2.1
  rw [if_neg (by decide)] at h2
  exact h2
